import Mathlib

/-!
Parallel integral: CPU sets, topology selection, the task partitioner and the two
schedulers.

A shallow embedding of `src/parallel_integral/cpu_topology.c` and
`src/parallel_integral/integrate.c`.

Conventions of the embedding:

* C `int` values that can be negative (CPU numbers, topology identifiers, return
  values) are `Int`; counts (`n_tasks`, `n_threads`, `n_cpus`), loop counters that
  count down to zero and array indices are `Nat`, so negative counts are outside the
  model.
* C `size_t` values are `Nat`. Inside `integrate_split_tasks` every `size_t` value is
  bounded by the `n_steps` argument, so nothing can wrap there; the only `size_t`
  operation that can leave the range is the product in
  `integrate_multicore_scalable`, which is reduced modulo `SIZE_MOD`.
* `long double` / `worker_tmp_t` values are rationals (exact arithmetic).
* An array reached through a pointer is a function from indices to cells.
-/

set_option autoImplicit false

namespace ParallelIntegral

/-! ## CPU sets (glibc `cpu_set_t`) -/

/-- Number of bits of a `cpu_set_t` (glibc `<sched.h>`). -/
def CPU_SETSIZE : Nat := 1024

/-- A `cpu_set_t`: bit `i` of the mask, for `i < CPU_SETSIZE`. -/
abbrev cpu_set_t := Nat → Bool

/-- The index test shared by the glibc macros: the `int` argument is converted to
`size_t` and the macro does nothing (or yields 0) when it is out of range. -/
def cpu_in_range (cpu : Int) : Bool := decide (0 ≤ cpu) && decide (cpu < (CPU_SETSIZE : Int))

/-- `CPU_ZERO(set)`. -/
def CPU_ZERO : cpu_set_t := fun _ => false

/-- `CPU_SET(cpu, set)`. -/
def CPU_SET (cpu : Int) (set : cpu_set_t) : cpu_set_t :=
  if cpu_in_range cpu then Function.update set cpu.toNat true else set

/-- `CPU_CLR(cpu, set)`. -/
def CPU_CLR (cpu : Int) (set : cpu_set_t) : cpu_set_t :=
  if cpu_in_range cpu then Function.update set cpu.toNat false else set

/-- `CPU_ISSET(cpu, set)`. -/
def CPU_ISSET (cpu : Int) (set : cpu_set_t) : Bool :=
  if cpu_in_range cpu then set cpu.toNat else false

/-- `CPU_COUNT(set)`: the number of set bits. -/
def CPU_COUNT (set : cpu_set_t) : Nat := (List.range CPU_SETSIZE).countP set

/-- The loop of `cpu_set_search_next`: `n` is the number of indices `i`, `i + 1`, ...
that are still below `CPU_SETSIZE - 1`. -/
def cpu_set_search_loop (set : cpu_set_t) : Nat → Int → Int
  | 0, _ => 0
  | n + 1, i => if CPU_ISSET i set then i else cpu_set_search_loop set n (i + 1)

/-- `cpu_set_search_next(cpu, set)`:
`for (int i = cpu + 1; i < CPU_SETSIZE - 1; i++) if (CPU_ISSET(i, set)) return i; return 0;` -/
def cpu_set_search_next (cpu : Int) (set : cpu_set_t) : Int :=
  cpu_set_search_loop set ((CPU_SETSIZE : Int) - 1 - (cpu + 1)).toNat (cpu + 1)

/-! ## Task descriptors and the partitioner (`integrate.c`) -/

/-- The C `struct task_container`. -/
structure task_container where
  base : ℚ
  step_wdth : ℚ
  accum : ℚ
  start_step : Nat
  n_steps : Nat
  cpu : Int

/-- The variables of `integrate_split_tasks` that its two loops update: the task
array behind `tasks`, `cur_task` and `cur_step`. -/
structure split_state where
  tasks : Nat → task_container
  cur_task : Nat
  cur_step : Nat

/-- One pass of the inner loop body of `integrate_split_tasks`: fill
`tasks[cur_task]` and advance `cur_step`; the loop increment advances `cur_task`. -/
def split_write (base step : ℚ) (cpu : Int) (task_steps : Nat) (st : split_state) :
    split_state :=
  { tasks := Function.update st.tasks st.cur_task
      { st.tasks st.cur_task with
        base := base, step_wdth := step, cpu := cpu,
        start_step := st.cur_step, n_steps := task_steps }
    cur_task := st.cur_task + 1
    cur_step := st.cur_step + task_steps }

/-- The inner loop `for (; cpu_tasks != 0; cpu_tasks--, cur_task++)`. -/
def split_inner (base step : ℚ) (cpu : Int) : Nat → Nat → split_state → split_state
  | 0, _, st => st
  | k + 1, cpu_steps, st =>
      let task_steps := cpu_steps / (k + 1)
      split_inner base step cpu k (cpu_steps - task_steps)
        (split_write base step cpu task_steps st)

/-- The outer loop
`for (; n_cpus != 0; n_cpus--, cpu = cpu_set_search_next(cpu, cpuset))`. -/
def split_outer (cpuset : cpu_set_t) (base step : ℚ) :
    Nat → Nat → Nat → Int → split_state → split_state
  | 0, _, _, _, st => st
  | m + 1, n_steps, n_tasks, cpu, st =>
      let cpu_steps := n_steps / (m + 1)
      let cpu_tasks := n_tasks / (m + 1)
      split_outer cpuset base step m (n_steps - cpu_steps) (n_tasks - cpu_tasks)
        (cpu_set_search_next cpu cpuset)
        (split_inner base step cpu cpu_tasks cpu_steps st)

/-- `integrate_split_tasks(tasks, n_tasks, cpuset, n_steps, base, step)`: the task
array after the call. -/
def integrate_split_tasks (tasks : Nat → task_container) (n_tasks : Nat)
    (cpuset : cpu_set_t) (n_steps : Nat) (base step : ℚ) : Nat → task_container :=
  let n_cpus := if n_tasks < CPU_COUNT cpuset then n_tasks else CPU_COUNT cpuset
  (split_outer cpuset base step n_cpus n_steps n_tasks (cpu_set_search_next (-1) cpuset)
    { tasks := tasks, cur_task := 0, cur_step := 0 }).tasks

/-- The loop of `integrate_task_worker`:
`for (i = n_steps; i != 0; i--, cur_step++) sum += INTEGRATE_FUNC(x) * step_wdth;`
with `x = base + cur_step * step_wdth`. The integrand `INTEGRATE_FUNC` is `f`. -/
def worker_loop (f : ℚ → ℚ) (base step_wdth : ℚ) : Nat → Nat → ℚ → ℚ
  | 0, _, sum => sum
  | i + 1, cur_step, sum =>
      worker_loop f base step_wdth i (cur_step + 1)
        (sum + f (base + (cur_step : ℚ) * step_wdth) * step_wdth)

/-- `integrate_task_worker(arg)`: the descriptor after the worker has run. -/
def integrate_task_worker (f : ℚ → ℚ) (pack : task_container) : task_container :=
  { pack with accum := worker_loop f pack.base pack.step_wdth pack.n_steps pack.start_step 0 }

/-- The loop of `integrate_accumulate_result`: `n` iterations remain, `i` is the index. -/
def accumulate_loop (tasks : Nat → task_container) : Nat → Nat → ℚ → ℚ
  | 0, _, accum => accum
  | n + 1, i, accum => accumulate_loop tasks n (i + 1) (accum + (tasks i).accum)

/-- `integrate_accumulate_result(tasks, n_tasks)`. -/
def integrate_accumulate_result (tasks : Nat → task_container) (n_tasks : Nat) : ℚ :=
  accumulate_loop tasks n_tasks 0 0

/-- The state after every one of the first `n_tasks` descriptors has been processed by
its own `integrate_task_worker` (each worker writes only its own descriptor). -/
def run_workers (f : ℚ → ℚ) (tasks : Nat → task_container) (n_tasks : Nat) :
    Nat → task_container :=
  fun i => if i < n_tasks then integrate_task_worker f (tasks i) else tasks i

/-- The objects `integrate_tasks_unused_cpus` is handed: the task array, the CPU set
it reads and the CPU set it writes. -/
structure unused_mem where
  tasks : Nat → task_container
  cpuset : cpu_set_t
  result : cpu_set_t

/-- The first loop of `integrate_tasks_unused_cpus`:
`for (i = 0; i < CPU_SETSIZE; i++) if (CPU_ISSET(i, cpuset)) CPU_SET(i, result);` -/
def unused_copy_loop : Nat → Nat → unused_mem → unused_mem
  | 0, _, m => m
  | n + 1, i, m =>
      unused_copy_loop n (i + 1)
        (if CPU_ISSET (i : Int) m.cpuset then { m with result := CPU_SET (i : Int) m.result }
         else m)

/-- The second loop of `integrate_tasks_unused_cpus`:
`for (i = 0; i < n_tasks; i++) CPU_CLR(tasks[i].task.cpu, result);` -/
def unused_clr_loop : Nat → Nat → unused_mem → unused_mem
  | 0, _, m => m
  | n + 1, i, m =>
      unused_clr_loop n (i + 1) { m with result := CPU_CLR (m.tasks i).cpu m.result }

/-- `integrate_tasks_unused_cpus(tasks, n_tasks, cpuset, result)`. -/
def integrate_tasks_unused_cpus (m : unused_mem) (n_tasks : Nat) : unused_mem :=
  unused_clr_loop n_tasks 0 (unused_copy_loop CPU_SETSIZE 0 { m with result := CPU_ZERO })

/-! ## One CPU per core (`cpu_topology.c`) -/

/-- Modelled from the spec: the header `cpu_topology.h` is not among the sources; an
element of `topo->cpu[]` is a `CpuTopologyEntry` `{cpu_id, core_id, package_id}`, the
three fields the code reads and writes. -/
structure cpu_entry where
  package_id : Int
  core_id : Int
  cpu_id : Int

/-- Modelled from the spec: `struct cpu_topology` of the missing header, with the
entry array `cpu[]` and the three maxima the code reads. -/
structure cpu_topology where
  cpu : Nat → cpu_entry
  max_package_id : Int
  max_core_id : Int
  max_cpu_id : Int

/-- `for (int i = 0; i < assoc_cpu_s; i++) assoc_cpu[i] = -1;` -/
def assoc_init_loop : Nat → Int → (Int → Int) → (Int → Int)
  | 0, _, a => a
  | n + 1, i, a => assoc_init_loop n (i + 1) (Function.update a i (-1))

/-- `for (int i = 0; i < n_cpus; i++)
assoc_cpu[cpu[i].package_id * n_cores + cpu[i].core_id] = cpu[i].cpu_id;` -/
def assoc_fill_loop (topo : cpu_topology) (n_cores : Int) :
    Nat → Nat → (Int → Int) → (Int → Int)
  | 0, _, a => a
  | n + 1, i, a =>
      assoc_fill_loop topo n_cores n (i + 1)
        (Function.update a ((topo.cpu i).package_id * n_cores + (topo.cpu i).core_id)
          (topo.cpu i).cpu_id)

/-- `for (int i = 0; i < assoc_cpu_s; i++) if (assoc_cpu[i] != -1) CPU_SET(assoc_cpu[i], cpuset);` -/
def assoc_collect_loop (a : Int → Int) : Nat → Int → cpu_set_t → cpu_set_t
  | 0, _, s => s
  | n + 1, i, s => assoc_collect_loop a n (i + 1) (if a i ≠ -1 then CPU_SET (a i) s else s)

/-- `one_cpu_per_core_cpu_topology(topo, cpuset)`: the return value and the CPU set
behind `cpuset` after the call. `assoc_cpu` is what `malloc` hands back: `none` for
`NULL`, otherwise the block with whatever it contained. -/
def one_cpu_per_core_cpu_topology (assoc_cpu : Option (Int → Int)) (topo : cpu_topology)
    (cpuset : cpu_set_t) : Int × cpu_set_t :=
  let n_packages := topo.max_package_id + 1
  let n_cores := topo.max_core_id + 1
  let n_cpus := topo.max_cpu_id + 1
  let assoc_cpu_s := n_packages * n_cores
  match assoc_cpu with
  | none => (-1, cpuset)
  | some a0 =>
      let a1 := assoc_init_loop assoc_cpu_s.toNat 0 a0
      let a2 := assoc_fill_loop topo n_cores n_cpus.toNat 0 a1
      (0, assoc_collect_loop a2 assoc_cpu_s.toNat 0 CPU_ZERO)

/-! ## The two schedulers (`integrate.c`), with allocation as explicit state -/

/-- Allocation state: `next` is the identifier the next successful allocation gets,
`live` lists the blocks that were allocated and not yet freed. -/
structure heap where
  next : Nat
  live : List Nat
  deriving DecidableEq

/-- The value of a local pointer variable. A `goto` that jumps over the declaration
leaves it `indeterminate`. -/
inductive local_ptr where
  | indeterminate : local_ptr
  | null : local_ptr
  | block : Nat → local_ptr
  deriving DecidableEq

/-- `malloc` / `calloc` / `aligned_alloc`: `ok` says whether the call succeeds. -/
def heap_alloc (ok : Bool) (h : heap) : local_ptr × heap :=
  if ok then (local_ptr.block h.next, { next := h.next + 1, live := h.next :: h.live })
  else (local_ptr.null, h)

/-- `free(p)` of a block. -/
def heap_free (p : Nat) (h : heap) : heap := { h with live := h.live.erase p }

/-- What a scheduler call leaves behind: its return value, the value stored through
`result` (if any), the allocation state, and `wild`, which records that a pointer
variable was tested while it was indeterminate. -/
structure run_outcome where
  ret : Int
  result : Option ℚ
  h : heap
  wild : Bool

/-- The outcome of every step of a run that can fail: the four allocations,
`set_this_thread_cpu`, the two `integrate_run_tasks` calls, the two
`integrate_join_tasks` calls (`true` = the step succeeds), and `trap` (`true` = a
signal exception during the inline worker reaches the `setjmp` target). -/
structure run_env where
  tasks_alloc : Bool
  bad_tasks_alloc : Bool
  threads_alloc : Bool
  bad_threads_alloc : Bool
  set_cpu : Bool
  run_bad : Bool
  run_tasks : Bool
  trap : Bool
  join_bad : Bool
  join_tasks : Bool

/-- The environment in which every step succeeds and no exception is raised. -/
def env_success : run_env :=
  { tasks_alloc := true, bad_tasks_alloc := true, threads_alloc := true,
    bad_threads_alloc := true, set_cpu := true, run_bad := true, run_tasks := true,
    trap := false, join_bad := true, join_tasks := true }

/-- `if (p) free(p);` (for a thread array, `integrate_cancel_tasks` comes first; it frees
nothing). -/
def free_if_set (p : local_ptr) (o : heap × Bool) : heap × Bool :=
  match p with
  | local_ptr.indeterminate => (o.1, true)
  | local_ptr.null => o
  | local_ptr.block b => (heap_free b o.1, o.2)

/-- The `handle_err:` block of `integrate_multicore`. -/
def multicore_handle_err (tasks threads : local_ptr) (h : heap) : run_outcome :=
  let o := free_if_set tasks (free_if_set threads (h, false))
  { ret := -1, result := none, h := o.1, wild := o.2 }

/-- `integrate_multicore(cpuset, n_steps, base, step, result)`. `tasks0` is the content
of the fresh descriptor block. Threads are abstracted to their effect: once every
create and join has succeeded, each descriptor has been processed by its worker. -/
def integrate_multicore (env : run_env) (f : ℚ → ℚ) (cpuset : cpu_set_t) (n_steps : Nat)
    (base step : ℚ) (tasks0 : Nat → task_container) (h : heap) : run_outcome :=
  let n_threads := CPU_COUNT cpuset
  match heap_alloc env.tasks_alloc h with
  | (local_ptr.block t, h1) =>
      match heap_alloc env.threads_alloc h1 with
      | (local_ptr.block th, h2) =>
          let tasks := integrate_split_tasks tasks0 n_threads cpuset n_steps base step
          if !env.set_cpu then multicore_handle_err (.block t) (.block th) h2
          else if !env.run_tasks then multicore_handle_err (.block t) (.block th) h2
          else if env.trap then multicore_handle_err (.block t) (.block th) h2
          else if !env.join_tasks then multicore_handle_err (.block t) (.block th) h2
          else
            { ret := 0
              result := some (integrate_accumulate_result (run_workers f tasks n_threads)
                n_threads)
              h := heap_free t h2
              wild := false }
      | (_, h2) => multicore_handle_err (.block t) .null h2
  | (_, h1) => multicore_handle_err .null .indeterminate h1

/-- Modulus of `size_t` arithmetic (64-bit `size_t`). -/
def SIZE_MOD : Nat := 2 ^ 64

/-- `n_bad_threads` of `integrate_multicore_scalable`. -/
def scalable_n_bad_threads (n_threads : Nat) (cpuset : cpu_set_t) : Nat :=
  if CPU_COUNT cpuset > n_threads then CPU_COUNT cpuset - n_threads else 0

/-- `bad_cpuset` of `integrate_multicore_scalable` after
`integrate_tasks_unused_cpus(tasks, n_threads, cpuset, &bad_cpuset)`; `bad0` is the
content of the uninitialised local. -/
def scalable_bad_cpuset (tasks : Nat → task_container) (n_threads : Nat)
    (cpuset bad0 : cpu_set_t) : cpu_set_t :=
  (integrate_tasks_unused_cpus { tasks := tasks, cpuset := cpuset, result := bad0 }
    n_threads).result

/-- `size_t n_bad_steps = (n_steps / n_threads) * n_bad_threads;` The product is taken
in `size_t`, so it wraps modulo `SIZE_MOD`. (For `n_threads = 0` the C division is
undefined; the model then yields 0.) -/
def scalable_n_bad_steps (n_steps n_threads n_bad_threads : Nat) : Nat :=
  ((n_steps / n_threads) * n_bad_threads) % SIZE_MOD

/-- The filler descriptors of `integrate_multicore_scalable` after the second
`integrate_split_tasks` call (the primary descriptors are `tasks`). -/
def scalable_bad_tasks (tasks bad_tasks0 : Nat → task_container) (n_threads : Nat)
    (cpuset bad0 : cpu_set_t) (n_steps : Nat) (base step : ℚ) : Nat → task_container :=
  integrate_split_tasks bad_tasks0 (scalable_n_bad_threads n_threads cpuset)
    (scalable_bad_cpuset tasks n_threads cpuset bad0)
    (scalable_n_bad_steps n_steps n_threads (scalable_n_bad_threads n_threads cpuset))
    base step

/-- The `handle_err:` block of `integrate_multicore_scalable`. -/
def scalable_handle_err (tasks bad_tasks threads bad_threads : local_ptr) (h : heap) :
    run_outcome :=
  let o := free_if_set tasks (free_if_set bad_tasks
    (free_if_set threads (free_if_set bad_threads (h, false))))
  { ret := -1, result := none, h := o.1, wild := o.2 }

/-- The part of `integrate_multicore_scalable` after the four allocations. -/
def scalable_run (env : run_env) (f : ℚ → ℚ) (n_threads : Nat) (cpuset : cpu_set_t)
    (n_steps : Nat) (base step : ℚ) (tasks0 bad_tasks0 : Nat → task_container)
    (bad0 : cpu_set_t) (t th : Nat) (bad_tasks bad_threads : local_ptr) (h : heap) :
    run_outcome :=
  let n_bad_threads := scalable_n_bad_threads n_threads cpuset
  let tasks := integrate_split_tasks tasks0 n_threads cpuset n_steps base step
  let filler := if n_bad_threads ≠ 0 then
      scalable_bad_tasks tasks bad_tasks0 n_threads cpuset bad0 n_steps base step
    else bad_tasks0
  let err := scalable_handle_err (.block t) bad_tasks (.block th) bad_threads h
  if !env.set_cpu then err
  else if n_bad_threads ≠ 0 && !env.run_bad then err
  else if !env.run_tasks then err
  else if env.trap then err
  else if n_bad_threads ≠ 0 && !env.join_bad then err
  else if !env.join_tasks then err
  else
    let _filler_done := run_workers f filler n_bad_threads
    let h1 := if n_bad_threads ≠ 0 then
        free_if_set bad_threads (free_if_set bad_tasks (h, false))
      else (h, false)
    { ret := 0
      result := some (integrate_accumulate_result (run_workers f tasks n_threads) n_threads)
      h := heap_free th (heap_free t h1.1)
      wild := h1.2 }

/-- The part of `integrate_multicore_scalable` from the allocation of `bad_threads` on. -/
def scalable_alloc_bad_threads (env : run_env) (f : ℚ → ℚ) (n_threads : Nat)
    (cpuset : cpu_set_t) (n_steps : Nat) (base step : ℚ)
    (tasks0 bad_tasks0 : Nat → task_container) (bad0 : cpu_set_t) (t th : Nat)
    (bad_tasks : local_ptr) (h : heap) : run_outcome :=
  if scalable_n_bad_threads n_threads cpuset ≠ 0 then
    match heap_alloc env.bad_threads_alloc h with
    | (local_ptr.block bth, h1) =>
        scalable_run env f n_threads cpuset n_steps base step tasks0 bad_tasks0 bad0 t th
          bad_tasks (.block bth) h1
    | (_, h1) => scalable_handle_err (.block t) bad_tasks (.block th) .null h1
  else
    scalable_run env f n_threads cpuset n_steps base step tasks0 bad_tasks0 bad0 t th
      bad_tasks .null h

/-- The part of `integrate_multicore_scalable` from the allocation of `threads` on. -/
def scalable_alloc_threads (env : run_env) (f : ℚ → ℚ) (n_threads : Nat)
    (cpuset : cpu_set_t) (n_steps : Nat) (base step : ℚ)
    (tasks0 bad_tasks0 : Nat → task_container) (bad0 : cpu_set_t) (t : Nat)
    (bad_tasks : local_ptr) (h : heap) : run_outcome :=
  match heap_alloc env.threads_alloc h with
  | (local_ptr.block th, h1) =>
      scalable_alloc_bad_threads env f n_threads cpuset n_steps base step tasks0 bad_tasks0
        bad0 t th bad_tasks h1
  | (_, h1) => scalable_handle_err (.block t) bad_tasks .null .indeterminate h1

/-- `integrate_multicore_scalable(n_threads, cpuset, n_steps, base, step, result)`.
`tasks0` and `bad_tasks0` are the contents of the fresh descriptor blocks, `bad0` the
content of the local `bad_cpuset`. Threads are abstracted as in `integrate_multicore`. -/
def integrate_multicore_scalable (env : run_env) (f : ℚ → ℚ) (n_threads : Nat)
    (cpuset : cpu_set_t) (n_steps : Nat) (base step : ℚ)
    (tasks0 bad_tasks0 : Nat → task_container) (bad0 : cpu_set_t) (h : heap) :
    run_outcome :=
  match heap_alloc env.tasks_alloc h with
  | (local_ptr.block t, h1) =>
      if scalable_n_bad_threads n_threads cpuset ≠ 0 then
        match heap_alloc env.bad_tasks_alloc h1 with
        | (local_ptr.block bt, h2) =>
            scalable_alloc_threads env f n_threads cpuset n_steps base step tasks0
              bad_tasks0 bad0 t (.block bt) h2
        | (_, h2) => scalable_handle_err (.block t) .null .indeterminate .indeterminate h2
      else
        scalable_alloc_threads env f n_threads cpuset n_steps base step tasks0 bad_tasks0
          bad0 t .null h1
  | (_, h1) => scalable_handle_err .null .indeterminate .indeterminate .indeterminate h1

/-! ## Specification vocabulary -/

/-- The members of a CPU set as a finite set of indices. -/
def members (set : cpu_set_t) : Finset Nat :=
  (Finset.range CPU_SETSIZE).filter (fun i => set i = true)

/-- The members of a CPU set that are greater than `c`. -/
def members_above (set : cpu_set_t) (c : Int) : Finset Nat :=
  (members set).filter (fun i => c < (i : Int))

/-- Descriptors `0 .. m-1` tile the steps `[0, c)` in order: the first starts at 0,
each next one starts where its predecessor ends, and the last ends at `c`. -/
structure Contig (tasks : Nat → task_container) (m c : Nat) : Prop where
  first : 0 < m → (tasks 0).start_step = 0
  empty : m = 0 → c = 0
  next : ∀ i, i + 1 < m → (tasks (i + 1)).start_step = (tasks i).start_step + (tasks i).n_steps
  last : ∀ i, i + 1 = m → (tasks i).start_step + (tasks i).n_steps = c

/-- The sequential Riemann sum `Σ_{k < n} f(base + k * step) * step`. -/
def sequential_sum (f : ℚ → ℚ) (base step : ℚ) (n : Nat) : ℚ :=
  ∑ k in Finset.range n, f (base + (k : ℚ) * step) * step

/-- The CPUs visited by the walk of `integrate_split_tasks`: `cpu_walk set 0` is the
start value `-1`, `cpu_walk set (k + 1)` the CPU of the `k`-th pass of the outer loop. -/
def cpu_walk (set : cpu_set_t) : Nat → Int
  | 0 => -1
  | k + 1 => cpu_set_search_next (cpu_walk set k) set

/-- The slot of `assoc_cpu` that entry `i` of the topology is recorded in. -/
def assoc_slot (topo : cpu_topology) (n_cores : Int) (i : Nat) : Int :=
  (topo.cpu i).package_id * n_cores + (topo.cpu i).core_id

/-- Entry `i` is the last of the first `n` entries with its `(package_id, core_id)` pair. -/
def last_of_pair (topo : cpu_topology) (n i : Nat) : Prop :=
  i < n ∧ ∀ j, i < j → j < n →
    ¬ ((topo.cpu j).package_id = (topo.cpu i).package_id ∧
       (topo.cpu j).core_id = (topo.cpu i).core_id)

/-- A topology of `P` packages × `C` cores × `H` hyperthreads: `P * C * H` entries with
pairwise distinct `cpu_id`s `0 .. P*C*H-1` below `CPU_SETSIZE`, `package_id`s in `[0, P)`,
`core_id`s in `[0, C)`, exactly `H ≥ 1` entries for each `(package_id, core_id)` pair,
and the three maxima that belong to these ranges. -/
structure grid_topology (topo : cpu_topology) (P C H : Nat) : Prop where
  hyper : 1 ≤ H
  size : P * C * H ≤ CPU_SETSIZE
  max_package : topo.max_package_id = (P : Int) - 1
  max_core : topo.max_core_id = (C : Int) - 1
  max_cpu : topo.max_cpu_id = ((P * C * H : Nat) : Int) - 1
  cpu_ids : ∀ i, i < P * C * H →
    0 ≤ (topo.cpu i).cpu_id ∧ (topo.cpu i).cpu_id < ((P * C * H : Nat) : Int)
  distinct : ∀ i, i < P * C * H → ∀ j, j < P * C * H →
    (topo.cpu i).cpu_id = (topo.cpu j).cpu_id → i = j
  packages : ∀ i, i < P * C * H →
    0 ≤ (topo.cpu i).package_id ∧ (topo.cpu i).package_id < (P : Int)
  cores : ∀ i, i < P * C * H →
    0 ≤ (topo.cpu i).core_id ∧ (topo.cpu i).core_id < (C : Int)
  per_core : ∀ p, p < P → ∀ c, c < C →
    ((Finset.range (P * C * H)).filter (fun i =>
      (topo.cpu i).package_id = (p : Int) ∧ (topo.cpu i).core_id = (c : Int))).card = H

/-! ## Concrete inputs used to instantiate the theorems -/

/-- A task array whose cells are all zero. -/
def blank_tasks : Nat → task_container :=
  fun _ => { base := 0, step_wdth := 0, accum := 0, start_step := 0, n_steps := 0, cpu := 0 }

/-- The CPU set `{0, ..., n-1}`. -/
def first_cpus (n : Nat) : cpu_set_t := fun i => decide (i < n)

/-- The CPU set `{c}`. -/
def single_cpu (c : Nat) : cpu_set_t := fun i => decide (i = c)

/-- One package with two cores of two hyperthreads each; CPUs 0 and 2 share core 0,
CPUs 1 and 3 share core 1. -/
def small_topology : cpu_topology :=
  { cpu := fun i =>
      if i = 0 then { package_id := 0, core_id := 0, cpu_id := 0 }
      else if i = 1 then { package_id := 0, core_id := 1, cpu_id := 1 }
      else if i = 2 then { package_id := 0, core_id := 0, cpu_id := 2 }
      else { package_id := 0, core_id := 1, cpu_id := 3 }
    max_package_id := 0
    max_core_id := 1
    max_cpu_id := 3 }

/-- The allocation state in which nothing has been allocated yet. -/
def empty_heap : heap := { next := 0, live := [] }

/-! ## Theorems -/

/-! ### The partitioner: loop invariants -/

theorem split_inner_induct (P : split_state → Prop) (base step : ℚ) (cpu : Int)
    (hP : ∀ st t, P st → P (split_write base step cpu t st)) :
    ∀ (k s : Nat) (st : split_state), P st → P (split_inner base step cpu k s st) := by
  intro k
  induction k with
  | zero => intro s st h; simpa [split_inner] using h
  | succ k ih =>
      intro s st h
      simp only [split_inner]
      exact ih _ _ (hP _ _ h)

theorem split_outer_induct (P : split_state → Prop) (cpuset : cpu_set_t) (base step : ℚ)
    (hP : ∀ cpu st t, P st → P (split_write base step cpu t st)) :
    ∀ (m S T : Nat) (cpu : Int) (st : split_state), P st →
      P (split_outer cpuset base step m S T cpu st) := by
  intro m
  induction m with
  | zero => intro S T cpu st h; simpa [split_outer] using h
  | succ m ih =>
      intro S T cpu st h
      simp only [split_outer]
      exact ih _ _ _ _ (split_inner_induct P base step cpu (hP cpu) _ _ _ h)

theorem split_inner_cur_task (base step : ℚ) (cpu : Int) :
    ∀ (k s : Nat) (st : split_state),
      (split_inner base step cpu k s st).cur_task = st.cur_task + k := by
  intro k
  induction k with
  | zero => intro s st; simp [split_inner]
  | succ k ih =>
      intro s st
      simp only [split_inner, ih, split_write]
      omega

theorem split_inner_cur_step (base step : ℚ) (cpu : Int) :
    ∀ (k s : Nat) (st : split_state), 0 < k →
      (split_inner base step cpu k s st).cur_step = st.cur_step + s := by
  intro k
  induction k with
  | zero => intro s st h; omega
  | succ k ih =>
      intro s st _
      simp only [split_inner]
      rcases Nat.eq_zero_or_pos k with hk | hk
      · subst hk
        simp [split_inner, split_write]
      · rw [ih _ _ hk]
        simp only [split_write]
        have := Nat.div_le_self s (k + 1)
        omega

theorem div_succ_pos {m T : Nat} (h : m + 1 ≤ T) : 0 < T / (m + 1) :=
  Nat.div_pos h (Nat.succ_pos m)

theorem le_sub_div_succ {m T : Nat} (h : m + 1 ≤ T) : m ≤ T - T / (m + 1) := by
  have h1 : T / (m + 1) * (m + 1) ≤ T := Nat.div_mul_le_self T (m + 1)
  have h2 : 0 < T / (m + 1) := div_succ_pos h
  have h3 : m ≤ T / (m + 1) * m := Nat.le_mul_of_pos_left m h2
  have h4 : T / (m + 1) * (m + 1) = T / (m + 1) * m + T / (m + 1) := by ring
  omega

theorem split_outer_cur_task (cpuset : cpu_set_t) (base step : ℚ) :
    ∀ (m S T : Nat) (cpu : Int) (st : split_state), 0 < m → m ≤ T →
      (split_outer cpuset base step m S T cpu st).cur_task = st.cur_task + T := by
  intro m
  induction m with
  | zero => intro S T cpu st h; omega
  | succ m ih =>
      intro S T cpu st _ hT
      simp only [split_outer]
      rcases Nat.eq_zero_or_pos m with hm | hm
      · subst hm
        simp [split_outer, split_inner_cur_task]
      · rw [ih _ _ _ _ hm (le_sub_div_succ hT), split_inner_cur_task]
        have := Nat.div_le_self T (m + 1)
        omega

theorem split_outer_cur_step (cpuset : cpu_set_t) (base step : ℚ) :
    ∀ (m S T : Nat) (cpu : Int) (st : split_state), 0 < m → m ≤ T →
      (split_outer cpuset base step m S T cpu st).cur_step = st.cur_step + S := by
  intro m
  induction m with
  | zero => intro S T cpu st h; omega
  | succ m ih =>
      intro S T cpu st _ hT
      simp only [split_outer]
      rcases Nat.eq_zero_or_pos m with hm | hm
      · subst hm
        have hT1 : 0 < T := by omega
        simp [split_outer, split_inner_cur_step _ _ _ _ _ _ hT1]
      · rw [ih _ _ _ _ hm (le_sub_div_succ hT),
          split_inner_cur_step _ _ _ _ _ _ (div_succ_pos hT)]
        have := Nat.div_le_self S (m + 1)
        omega

theorem contig_split_write (base step : ℚ) (cpu : Int) (t : Nat) (st : split_state)
    (h : Contig st.tasks st.cur_task st.cur_step) :
    Contig (split_write base step cpu t st).tasks (split_write base step cpu t st).cur_task
      (split_write base step cpu t st).cur_step := by
  obtain ⟨h1, h2, h3, h4⟩ := h
  refine ⟨?_, ?_, ?_, ?_⟩
  · intro _
    simp only [split_write]
    by_cases hc : st.cur_task = 0
    · rw [hc]; simp [h2 hc]
    · rw [Function.update_noteq (Ne.symm hc)]
      exact h1 (by omega)
  · intro h; simp [split_write] at h
  · intro i hi
    simp only [split_write] at hi ⊢
    by_cases hc : i + 1 = st.cur_task
    · have hne : i ≠ st.cur_task := by omega
      rw [← hc, Function.update_same, Function.update_noteq (by omega)]
      exact (h4 i hc).symm
    · rw [Function.update_noteq hc, Function.update_noteq (by omega)]
      exact h3 i (by omega)
  · intro i hi
    simp only [split_write] at hi ⊢
    have hc : i = st.cur_task := by omega
    rw [hc, Function.update_same]

theorem contig_split_tasks (tasks : Nat → task_container) (n_tasks : Nat)
    (cpuset : cpu_set_t) (n_steps : Nat) (base step : ℚ)
    (hn : 1 ≤ n_tasks) (hc : 1 ≤ CPU_COUNT cpuset) :
    Contig (integrate_split_tasks tasks n_tasks cpuset n_steps base step) n_tasks n_steps := by
  unfold integrate_split_tasks
  set n_cpus := if n_tasks < CPU_COUNT cpuset then n_tasks else CPU_COUNT cpuset with hdef
  have hpos : 0 < n_cpus := by rw [hdef]; split_ifs <;> omega
  have hle : n_cpus ≤ n_tasks := by rw [hdef]; split_ifs <;> omega
  have key := split_outer_induct (fun st => Contig st.tasks st.cur_task st.cur_step)
    cpuset base step (fun cpu st t h => contig_split_write base step cpu t st h)
    n_cpus n_steps n_tasks (cpu_set_search_next (-1) cpuset)
    { tasks := tasks, cur_task := 0, cur_step := 0 }
    ⟨fun h => absurd h (lt_irrefl 0), fun _ => rfl, fun i hi => absurd hi (by simp),
      fun i hi => absurd hi (by simp)⟩
  simp only [split_outer_cur_task _ _ _ _ _ _ _ _ hpos hle,
    split_outer_cur_step _ _ _ _ _ _ _ _ hpos hle] at key
  simpa using key

theorem contig_le {tasks : Nat → task_container} {m c : Nat} (h : Contig tasks m c) :
    ∀ j i, i < j → j < m → (tasks i).start_step + (tasks i).n_steps ≤ (tasks j).start_step := by
  intro j
  induction j with
  | zero => intro i hi; omega
  | succ j ih =>
      intro i hi hj
      have hn := h.next j hj
      rcases Nat.lt_or_ge i j with hlt | hge
      · have := ih i hlt (by omega)
        omega
      · have : i = j := by omega
        subst this
        omega

theorem contig_end_le {tasks : Nat → task_container} {m c : Nat} (h : Contig tasks m c)
    (i : Nat) (hi : i < m) : (tasks i).start_step + (tasks i).n_steps ≤ c := by
  have hl := h.last (m - 1) (by omega)
  rcases Nat.lt_or_ge i (m - 1) with hlt | hge
  · have := contig_le h (m - 1) i hlt (by omega)
    omega
  · have : i = m - 1 := by omega
    subst this
    omega

theorem contig_cover {tasks : Nat → task_container} {m c : Nat} (h : Contig tasks m c)
    (k : Nat) : ∀ j, j < m → k < (tasks j).start_step + (tasks j).n_steps →
      ∃ i, i < m ∧ (tasks i).start_step ≤ k ∧ k < (tasks i).start_step + (tasks i).n_steps := by
  intro j
  induction j with
  | zero =>
      intro hj hk
      exact ⟨0, hj, by rw [h.first hj]; omega, hk⟩
  | succ j ih =>
      intro hj hk
      rcases Nat.lt_or_ge k (tasks (j + 1)).start_step with hlt | hge
      · exact ih (by omega) (by rw [h.next j hj] at hlt; exact hlt)
      · exact ⟨j + 1, hj, hge, hk⟩

/-- C1. Work conservation of `integrate_split_tasks`: with at least one task and at
least one CPU in the set, the descriptors `0 .. n_tasks-1` start at step 0, each next
one starts where the previous one ends, the last one ends at `total_steps`; the
half-open ranges are pairwise disjoint and every step below `total_steps`, and no
other, lies in exactly one of them. -/
theorem C1_work_conservation (tasks0 : Nat → task_container) (n_tasks : Nat)
    (cpuset : cpu_set_t) (total_steps : Nat) (base step : ℚ)
    (hn : 1 ≤ n_tasks) (hc : 1 ≤ CPU_COUNT cpuset) :
    let tasks := integrate_split_tasks tasks0 n_tasks cpuset total_steps base step
    (tasks 0).start_step = 0 ∧
    (∀ i, i + 1 < n_tasks →
      (tasks (i + 1)).start_step = (tasks i).start_step + (tasks i).n_steps) ∧
    (tasks (n_tasks - 1)).start_step + (tasks (n_tasks - 1)).n_steps = total_steps ∧
    (∀ i j, i < j → j < n_tasks →
      (tasks i).start_step + (tasks i).n_steps ≤ (tasks j).start_step) ∧
    (∀ k, k < total_steps ↔
      ∃ i, i < n_tasks ∧ (tasks i).start_step ≤ k ∧
        k < (tasks i).start_step + (tasks i).n_steps) ∧
    (∀ k i j, i < n_tasks → j < n_tasks →
      (tasks i).start_step ≤ k → k < (tasks i).start_step + (tasks i).n_steps →
      (tasks j).start_step ≤ k → k < (tasks j).start_step + (tasks j).n_steps → i = j) := by
  intro tasks
  have h : Contig tasks n_tasks total_steps :=
    contig_split_tasks tasks0 n_tasks cpuset total_steps base step hn hc
  refine ⟨h.first (by omega), h.next, h.last _ (by omega),
    fun i j hij hj => contig_le h j i hij hj, ?_, ?_⟩
  · intro k
    constructor
    · intro hk
      exact contig_cover h k (n_tasks - 1) (by omega)
        (by rw [h.last _ (by omega)]; exact hk)
    · rintro ⟨i, hi, _, hk⟩
      have := contig_end_le h i hi
      omega
  · intro k i j hi hj h1 h2 h3 h4
    rcases Nat.lt_trichotomy i j with hlt | heq | hgt
    · have := contig_le h j i hlt hj
      omega
    · exact heq
    · have := contig_le h i j hgt hi
      omega

/-- C1 instantiated: 10 steps, 3 tasks, CPUs `{0, 1}`. -/
theorem C1_work_conservation_witness :
    (integrate_split_tasks blank_tasks 3 (first_cpus 2) 10 0 1 0).start_step = 0 :=
  (C1_work_conservation blank_tasks 3 (first_cpus 2) 10 0 1 (by decide) (by decide!)).1

/-- C7 (as stated) fails: with 10 steps, 3 tasks and the CPU set `{0}` the first task
does not receive 4 steps. -/
theorem C7_uneven_split_counterexample :
    ¬ ((integrate_split_tasks blank_tasks 3 (single_cpu 0) 10 0 1 0).n_steps = 4 ∧
       (integrate_split_tasks blank_tasks 3 (single_cpu 0) 10 0 1 1).n_steps = 3 ∧
       (integrate_split_tasks blank_tasks 3 (single_cpu 0) 10 0 1 2).n_steps = 3) := by
  have hc : CPU_COUNT (single_cpu 0) = 1 := by decide!
  have h3 : (integrate_split_tasks blank_tasks 3 (single_cpu 0) 10 0 1 0).n_steps = 3 := by
    unfold integrate_split_tasks
    rw [hc]
    rfl
  intro h
  rw [h3] at h
  exact absurd h.1 (by decide)

/-- C7 (amended). Uneven split: 10 steps, 3 tasks and a CPU set with a single member
give the step counts 3, 3, 4 in task order (starting at 0, 3, 6), summing to 10: the
division remainder lands on the last task. -/
theorem C7_uneven_split (tasks0 : Nat → task_container) (cpuset : cpu_set_t)
    (base step : ℚ) (hc : CPU_COUNT cpuset = 1) :
    let tasks := integrate_split_tasks tasks0 3 cpuset 10 base step
    (tasks 0).n_steps = 3 ∧ (tasks 1).n_steps = 3 ∧ (tasks 2).n_steps = 4 ∧
    (tasks 0).start_step = 0 ∧ (tasks 1).start_step = 3 ∧ (tasks 2).start_step = 6 ∧
    (tasks 0).n_steps + (tasks 1).n_steps + (tasks 2).n_steps = 10 := by
  unfold integrate_split_tasks
  rw [hc]
  exact ⟨rfl, rfl, rfl, rfl, rfl, rfl, rfl⟩

/-- C7 (amended) instantiated at the CPU set `{0}`. -/
theorem C7_uneven_split_witness :
    (integrate_split_tasks blank_tasks 3 (single_cpu 0) 10 0 1 2).n_steps = 4 :=
  (C7_uneven_split blank_tasks (single_cpu 0) 0 1 (by decide!)).2.2.1

/-! ### Worker, aggregator and the sequential sum -/

theorem worker_loop_eq (f : ℚ → ℚ) (base step_wdth : ℚ) :
    ∀ (n c : Nat) (sum : ℚ),
      worker_loop f base step_wdth n c sum =
        sum + ∑ j in Finset.range n, f (base + ((c + j : Nat) : ℚ) * step_wdth) * step_wdth := by
  intro n
  induction n with
  | zero => intro c sum; simp [worker_loop]
  | succ n ih =>
      intro c sum
      rw [worker_loop, ih, Finset.sum_range_succ']
      have : ∀ j, c + 1 + j = c + (j + 1) := fun j => by omega
      simp only [this, Nat.add_zero]
      ring

theorem accumulate_loop_eq (tasks : Nat → task_container) :
    ∀ (n i : Nat) (accum : ℚ),
      accumulate_loop tasks n i accum =
        accum + ∑ j in Finset.range n, (tasks (i + j)).accum := by
  intro n
  induction n with
  | zero => intro i accum; simp [accumulate_loop]
  | succ n ih =>
      intro i accum
      rw [accumulate_loop, ih, Finset.sum_range_succ']
      have : ∀ j, i + 1 + j = i + (j + 1) := fun j => by omega
      simp only [this, Nat.add_zero]
      ring

theorem contig_shorten {tasks : Nat → task_container} {m c : Nat}
    (h : Contig tasks (m + 1) c) : Contig tasks m (tasks m).start_step := by
  refine ⟨fun _ => h.first (by omega), ?_, fun i hi => h.next i (by omega), ?_⟩
  · intro hm
    subst hm
    exact h.first (by omega)
  · intro i hi
    subst hi
    exact (h.next i (by omega)).symm

theorem contig_sum (g : Nat → ℚ) (tasks : Nat → task_container) :
    ∀ (m c : Nat), Contig tasks m c →
      ∑ i in Finset.range m, ∑ j in Finset.range (tasks i).n_steps,
        g ((tasks i).start_step + j) = ∑ k in Finset.range c, g k := by
  intro m
  induction m with
  | zero =>
      intro c h
      rw [h.empty rfl]
      simp
  | succ m ih =>
      intro c h
      rw [Finset.sum_range_succ, ih _ (contig_shorten h), ← h.last m rfl,
        Finset.sum_range_add]

theorem split_write_fields (base step : ℚ) (cpu : Int) (t : Nat) (st : split_state)
    (h : ∀ i, i < st.cur_task → (st.tasks i).base = base ∧ (st.tasks i).step_wdth = step) :
    ∀ i, i < (split_write base step cpu t st).cur_task →
      ((split_write base step cpu t st).tasks i).base = base ∧
      ((split_write base step cpu t st).tasks i).step_wdth = step := by
  intro i hi
  simp only [split_write] at hi ⊢
  by_cases hc : i = st.cur_task
  · rw [hc, Function.update_same]
    exact ⟨rfl, rfl⟩
  · rw [Function.update_noteq hc]
    exact h i (by omega)

theorem split_tasks_fields (tasks : Nat → task_container) (n_tasks : Nat)
    (cpuset : cpu_set_t) (n_steps : Nat) (base step : ℚ)
    (hn : 1 ≤ n_tasks) (hc : 1 ≤ CPU_COUNT cpuset) (i : Nat) (hi : i < n_tasks) :
    (integrate_split_tasks tasks n_tasks cpuset n_steps base step i).base = base ∧
    (integrate_split_tasks tasks n_tasks cpuset n_steps base step i).step_wdth = step := by
  unfold integrate_split_tasks
  set n_cpus := if n_tasks < CPU_COUNT cpuset then n_tasks else CPU_COUNT cpuset with hdef
  have hpos : 0 < n_cpus := by rw [hdef]; split_ifs <;> omega
  have hle : n_cpus ≤ n_tasks := by rw [hdef]; split_ifs <;> omega
  have key := split_outer_induct
    (fun st => ∀ i, i < st.cur_task →
      (st.tasks i).base = base ∧ (st.tasks i).step_wdth = step)
    cpuset base step (fun cpu st t h => split_write_fields base step cpu t st h)
    n_cpus n_steps n_tasks (cpu_set_search_next (-1) cpuset)
    { tasks := tasks, cur_task := 0, cur_step := 0 }
    (fun i hi => absurd hi (by simp))
  simp only [split_outer_cur_task _ _ _ _ _ _ _ _ hpos hle] at key
  exact key i (by simpa using hi)

theorem accumulate_split_eq (f : ℚ → ℚ) (tasks0 : Nat → task_container) (n_tasks : Nat)
    (cpuset : cpu_set_t) (total_steps : Nat) (base step : ℚ)
    (hn : 1 ≤ n_tasks) (hc : 1 ≤ CPU_COUNT cpuset) :
    integrate_accumulate_result
      (run_workers f (integrate_split_tasks tasks0 n_tasks cpuset total_steps base step)
        n_tasks) n_tasks = sequential_sum f base step total_steps := by
  have hcontig := contig_split_tasks tasks0 n_tasks cpuset total_steps base step hn hc
  have hsum := contig_sum (fun k => f (base + (k : ℚ) * step) * step) _ _ _ hcontig
  unfold integrate_accumulate_result sequential_sum
  rw [accumulate_loop_eq, zero_add, ← hsum]
  apply Finset.sum_congr rfl
  intro i hi
  have hi' : i < n_tasks := Finset.mem_range.mp hi
  obtain ⟨hb, hs⟩ := split_tasks_fields tasks0 n_tasks cpuset total_steps base step hn hc i hi'
  simp only [zero_add, run_workers, if_pos hi', integrate_task_worker]
  rw [worker_loop_eq, zero_add, hb, hs]

/-! ### The schedulers: what a returning run leaves behind -/

theorem scalable_handle_err_ret (a b c d : local_ptr) (h : heap) :
    (scalable_handle_err a b c d h).ret = -1 := rfl

theorem scalable_run_result (env : run_env) (f : ℚ → ℚ) (n_threads : Nat)
    (cpuset : cpu_set_t) (n_steps : Nat) (base step : ℚ)
    (tasks0 bad_tasks0 : Nat → task_container) (bad0 : cpu_set_t) (t th : Nat)
    (bad_tasks bad_threads : local_ptr) (h : heap)
    (hret : (scalable_run env f n_threads cpuset n_steps base step tasks0 bad_tasks0 bad0
      t th bad_tasks bad_threads h).ret = 0) :
    (scalable_run env f n_threads cpuset n_steps base step tasks0 bad_tasks0 bad0
      t th bad_tasks bad_threads h).result =
      some (integrate_accumulate_result
        (run_workers f (integrate_split_tasks tasks0 n_threads cpuset n_steps base step)
          n_threads) n_threads) := by
  unfold scalable_run at hret ⊢
  simp only at hret ⊢
  split_ifs at hret ⊢ <;>
    first
      | rfl
      | (exact absurd hret (by rw [scalable_handle_err_ret]; decide))

theorem scalable_result (env : run_env) (f : ℚ → ℚ) (n_threads : Nat)
    (cpuset : cpu_set_t) (n_steps : Nat) (base step : ℚ)
    (tasks0 bad_tasks0 : Nat → task_container) (bad0 : cpu_set_t) (h : heap)
    (hret : (integrate_multicore_scalable env f n_threads cpuset n_steps base step tasks0
      bad_tasks0 bad0 h).ret = 0) :
    (integrate_multicore_scalable env f n_threads cpuset n_steps base step tasks0
      bad_tasks0 bad0 h).result =
      some (integrate_accumulate_result
        (run_workers f (integrate_split_tasks tasks0 n_threads cpuset n_steps base step)
          n_threads) n_threads) := by
  unfold integrate_multicore_scalable scalable_alloc_threads scalable_alloc_bad_threads
    heap_alloc at hret ⊢
  cases h1 : env.tasks_alloc <;> cases h2 : env.bad_tasks_alloc <;>
    cases h3 : env.threads_alloc <;> cases h4 : env.bad_threads_alloc <;>
    simp only [h1, h2, h3, h4, if_true, if_false, Bool.false_eq_true] at hret ⊢ <;>
    (try split_ifs at hret ⊢) <;>
    first
      | exact scalable_run_result _ _ _ _ _ _ _ _ _ _ _ _ _ _ _ hret
      | (exact absurd hret (by rw [scalable_handle_err_ret]; decide))

theorem scalable_success_ret (f : ℚ → ℚ) (n_threads : Nat)
    (cpuset : cpu_set_t) (n_steps : Nat) (base step : ℚ)
    (tasks0 bad_tasks0 : Nat → task_container) (bad0 : cpu_set_t) (h : heap) :
    (integrate_multicore_scalable env_success f n_threads cpuset n_steps base step tasks0
      bad_tasks0 bad0 h).ret = 0 := by
  unfold integrate_multicore_scalable scalable_alloc_threads scalable_alloc_bad_threads
    heap_alloc scalable_run env_success
  simp only [if_true]
  split_ifs <;> simp_all

/-- C2. In exact arithmetic, running `integrate_task_worker` on each descriptor
written by `integrate_split_tasks` and then `integrate_accumulate_result` over the
`n_tasks` descriptors gives the sequential sum `Σ_{k < total_steps} f(base + k*step)*step`;
`integrate_multicore_scalable` returns 0 when every step succeeds, and on every return
with value 0 the result it stores is that same sum, whatever the filler descriptors
and the unused-CPU set contain. -/
theorem C2_parallel_equals_sequential (f : ℚ → ℚ) (tasks0 bad_tasks0 : Nat → task_container)
    (bad0 : cpu_set_t) (h : heap) (n_tasks : Nat) (cpuset : cpu_set_t) (total_steps : Nat)
    (base step : ℚ) (hn : 1 ≤ n_tasks) (hc : 1 ≤ CPU_COUNT cpuset) :
    integrate_accumulate_result
      (run_workers f (integrate_split_tasks tasks0 n_tasks cpuset total_steps base step)
        n_tasks) n_tasks = sequential_sum f base step total_steps ∧
    (integrate_multicore_scalable env_success f n_tasks cpuset total_steps base step tasks0
      bad_tasks0 bad0 h).ret = 0 ∧
    ∀ env : run_env,
      (integrate_multicore_scalable env f n_tasks cpuset total_steps base step tasks0
        bad_tasks0 bad0 h).ret = 0 →
      (integrate_multicore_scalable env f n_tasks cpuset total_steps base step tasks0
        bad_tasks0 bad0 h).result = some (sequential_sum f base step total_steps) := by
  refine ⟨accumulate_split_eq f tasks0 n_tasks cpuset total_steps base step hn hc,
    scalable_success_ret _ _ _ _ _ _ _ _ _ _, ?_⟩
  intro env hret
  rw [scalable_result env f n_tasks cpuset total_steps base step tasks0 bad_tasks0 bad0 h hret,
    accumulate_split_eq f tasks0 n_tasks cpuset total_steps base step hn hc]

/-- C2 instantiated: the constant integrand 1 over 1000 steps of width 1/1000 with
4 tasks on the CPUs `{0, 1, 2, 3}` gives exactly 1. -/
theorem C2_parallel_equals_sequential_witness :
    integrate_accumulate_result
      (run_workers (fun _ => 1)
        (integrate_split_tasks blank_tasks 4 (first_cpus 4) 1000 0 (1 / 1000)) 4) 4 = 1 :=
  (C2_parallel_equals_sequential (fun _ => 1) blank_tasks blank_tasks CPU_ZERO
    { next := 0, live := [] } 4 (first_cpus 4) 1000 0 (1 / 1000)
    (by decide) (by decide!)).1.trans (by simp [sequential_sum])

/-! ### The partitioner when there are no more tasks than CPUs -/

theorem split_outer_frame (cpuset : cpu_set_t) (base step : ℚ) (m S T : Nat) (cpu : Int)
    (st : split_state) (i : Nat) (hi : i < st.cur_task) :
    (split_outer cpuset base step m S T cpu st).tasks i = st.tasks i := by
  have key := split_outer_induct
    (fun s => st.cur_task ≤ s.cur_task ∧ ∀ i, i < st.cur_task → s.tasks i = st.tasks i)
    cpuset base step
    (fun cpu s t h => by
      refine ⟨by simp only [split_write]; omega, fun i hi => ?_⟩
      simp only [split_write]
      rw [Function.update_noteq (by omega)]
      exact h.2 i hi)
    m S T cpu st ⟨le_refl _, fun _ _ => rfl⟩
  exact key.2 i hi

theorem split_outer_one_each (cpuset : cpu_set_t) (base step : ℚ) (m S : Nat) (cpu : Int)
    (st : split_state) :
    split_outer cpuset base step (m + 1) S (m + 1) cpu st =
      split_outer cpuset base step m (S - S / (m + 1)) m (cpu_set_search_next cpu cpuset)
        (split_write base step cpu (S / (m + 1)) st) := by
  simp only [split_outer, Nat.div_self (Nat.succ_pos m), split_inner, Nat.div_one,
    Nat.add_sub_cancel, Nat.zero_add]

theorem split_n_cpus_eq {n_tasks : Nat} {cpuset : cpu_set_t}
    (hle : n_tasks ≤ CPU_COUNT cpuset) :
    (if n_tasks < CPU_COUNT cpuset then n_tasks else CPU_COUNT cpuset) = n_tasks := by
  split_ifs <;> omega

theorem div_succ_cases {q m S : Nat} (hlo : q * m + q ≤ S) (hhi : S ≤ q * m + q + (m + 1)) :
    (S / (m + 1) = q ∧ S < q * m + q + (m + 1)) ∨
    (S / (m + 1) = q + 1 ∧ S = q * m + q + (m + 1)) := by
  rcases Nat.lt_or_ge S (q * m + q + (m + 1)) with hlt | hge
  · left
    refine ⟨Nat.div_eq_of_lt_le ?_ ?_, hlt⟩
    · rw [Nat.mul_succ]; exact hlo
    · rw [Nat.succ_mul, Nat.mul_succ]; exact hlt
  · right
    have hS : S = q * m + q + (m + 1) := by omega
    refine ⟨?_, hS⟩
    apply Nat.div_eq_of_lt_le
    · rw [Nat.succ_mul, Nat.mul_succ]; omega
    · rw [Nat.succ_mul, Nat.succ_mul, Nat.mul_succ]; omega

theorem split_even_steps (cpuset : cpu_set_t) (base step : ℚ) (q r : Nat) :
    ∀ (m S : Nat) (cpu : Int) (st : split_state),
      q * m ≤ S → S ≤ q * m + m → S ≤ q * m + r → ∀ j, j < m →
      ((split_outer cpuset base step m S m cpu st).tasks (st.cur_task + j)).n_steps = q ∨
      (((split_outer cpuset base step m S m cpu st).tasks (st.cur_task + j)).n_steps = q + 1
        ∧ 0 < r) := by
  intro m
  induction m with
  | zero => intro S cpu st _ _ _ j hj; omega
  | succ m ih =>
      intro S cpu st hlo hhi hr j hj
      rw [split_outer_one_each]
      rw [Nat.mul_succ] at hlo hhi hr
      have hcases := div_succ_cases hlo (by omega)
      rcases Nat.eq_zero_or_pos j with hj0 | hjpos
      · subst hj0
        rw [split_outer_frame _ _ _ _ _ _ _ _ _ (by simp [split_write])]
        simp only [split_write, Nat.add_zero, Function.update_same]
        rcases hcases with ⟨h, _⟩ | ⟨h, hS⟩
        · left; exact h
        · right; exact ⟨h, by omega⟩
      · have hidx : st.cur_task + j =
            (split_write base step cpu (S / (m + 1)) st).cur_task + (j - 1) := by
          simp only [split_write]; omega
        rw [hidx]
        rcases hcases with ⟨h, hS⟩ | ⟨h, hS⟩
        · exact ih _ _ _ (by rw [h]; omega) (by rw [h]; omega) (by rw [h]; omega) _
            (by omega)
        · exact ih _ _ _ (by rw [h]; omega) (by rw [h]; omega) (by rw [h]; omega) _
            (by omega)

theorem ceil_div_eq {total n : Nat} (hn : 0 < n) (hr : 0 < total % n) :
    (total + n - 1) / n = total / n + 1 := by
  have h1 := Nat.div_add_mod total n
  have h2 := Nat.mod_lt total hn
  apply Nat.div_eq_of_lt_le
  · rw [Nat.succ_mul, Nat.mul_comm]; omega
  · rw [Nat.succ_mul, Nat.succ_mul, Nat.mul_comm]; omega

theorem contig_start_of_const {tasks : Nat → task_container} {m c q : Nat}
    (h : Contig tasks m c) (hq : ∀ i, i < m → (tasks i).n_steps = q) :
    ∀ i, i < m → (tasks i).start_step = i * q := by
  intro i
  induction i with
  | zero => intro hi; simpa using h.first hi
  | succ i ih =>
      intro hi
      rw [h.next i hi, ih (by omega), hq i (by omega), Nat.succ_mul]

/-- C8. Even split when there are no more tasks than CPUs: for `1 ≤ n_tasks ≤ |cpuset|`
every task receives `⌊total_steps / n_tasks⌋` or `⌈total_steps / n_tasks⌉` steps, and
when `n_tasks` divides `total_steps` every task receives exactly
`total_steps / n_tasks` steps and task `i` starts at `i * total_steps / n_tasks`. -/
theorem C8_even_split (tasks0 : Nat → task_container) (n_tasks : Nat) (cpuset : cpu_set_t)
    (total_steps : Nat) (base step : ℚ)
    (hn : 1 ≤ n_tasks) (hle : n_tasks ≤ CPU_COUNT cpuset) :
    let tasks := integrate_split_tasks tasks0 n_tasks cpuset total_steps base step
    (∀ i, i < n_tasks →
      (tasks i).n_steps = total_steps / n_tasks ∨
      (tasks i).n_steps = (total_steps + n_tasks - 1) / n_tasks) ∧
    (n_tasks ∣ total_steps → ∀ i, i < n_tasks →
      (tasks i).n_steps = total_steps / n_tasks ∧
      (tasks i).start_step = i * total_steps / n_tasks) := by
  intro tasks
  have hmod := Nat.div_add_mod total_steps n_tasks
  have hlt := Nat.mod_lt total_steps (show 0 < n_tasks by omega)
  have key : ∀ i, i < n_tasks →
      (tasks i).n_steps = total_steps / n_tasks ∨
      ((tasks i).n_steps = total_steps / n_tasks + 1 ∧ 0 < total_steps % n_tasks) := by
    intro i hi
    have := split_even_steps cpuset base step (total_steps / n_tasks) (total_steps % n_tasks)
      n_tasks total_steps (cpu_set_search_next (-1) cpuset)
      { tasks := tasks0, cur_task := 0, cur_step := 0 }
      (by rw [Nat.mul_comm]; omega) (by rw [Nat.mul_comm]; omega)
      (by rw [Nat.mul_comm]; omega) i hi
    simp only [Nat.zero_add] at this
    simpa only [tasks, integrate_split_tasks, split_n_cpus_eq hle] using this
  refine ⟨?_, ?_⟩
  · intro i hi
    rcases key i hi with h | ⟨h, hr⟩
    · left; exact h
    · right; rw [h, ceil_div_eq (by omega) hr]
  · intro hdvd
    have hr0 : total_steps % n_tasks = 0 := Nat.mod_eq_zero_of_dvd hdvd
    have hq : ∀ i, i < n_tasks → (tasks i).n_steps = total_steps / n_tasks := by
      intro i hi
      rcases key i hi with h | ⟨_, hr⟩
      · exact h
      · omega
    have hcontig : Contig tasks n_tasks total_steps :=
      contig_split_tasks tasks0 n_tasks cpuset total_steps base step hn (by omega)
    intro i hi
    refine ⟨hq i hi, ?_⟩
    rw [contig_start_of_const hcontig hq i hi, Nat.mul_div_assoc i hdvd]

/-- C8 instantiated: 1000 steps, 4 tasks, CPUs `{0, 1, 2, 3}`: task 2 receives 250 steps
and starts at step 500. -/
theorem C8_even_split_witness :
    (integrate_split_tasks blank_tasks 4 (first_cpus 4) 1000 0 (1 / 1000) 2).n_steps = 250 ∧
    (integrate_split_tasks blank_tasks 4 (first_cpus 4) 1000 0 (1 / 1000) 2).start_step = 500 :=
  (C8_even_split blank_tasks 4 (first_cpus 4) 1000 0 (1 / 1000) (by decide)
    (by decide!)).2 (by decide) 2 (by decide)

/-! ### CPU sets -/

theorem cpu_in_range_iff (cpu : Int) :
    cpu_in_range cpu = true ↔ 0 ≤ cpu ∧ cpu < (CPU_SETSIZE : Int) := by
  simp [cpu_in_range]

theorem CPU_ISSET_iff (cpu : Int) (set : cpu_set_t) :
    CPU_ISSET cpu set = true ↔
      (0 ≤ cpu ∧ cpu < (CPU_SETSIZE : Int)) ∧ set cpu.toNat = true := by
  unfold CPU_ISSET
  by_cases h : cpu_in_range cpu = true
  · rw [if_pos h]
    exact ⟨fun hs => ⟨(cpu_in_range_iff cpu).mp h, hs⟩, fun hs => hs.2⟩
  · rw [if_neg h]
    constructor
    · intro hf; exact absurd hf (by simp)
    · intro hs; exact absurd ((cpu_in_range_iff cpu).mpr hs.1) h

theorem CPU_ISSET_nat (i : Nat) (set : cpu_set_t) :
    CPU_ISSET (i : Int) set = true ↔ i < CPU_SETSIZE ∧ set i = true := by
  rw [CPU_ISSET_iff]
  simp

theorem CPU_ISSET_CPU_ZERO (k : Int) : CPU_ISSET k CPU_ZERO = false := by
  unfold CPU_ISSET CPU_ZERO
  split_ifs <;> rfl

theorem toNat_inj_of_nonneg {a b : Int} (ha : 0 ≤ a) (hb : 0 ≤ b) :
    a.toNat = b.toNat ↔ a = b := by
  omega

theorem CPU_ISSET_CPU_SET (k cpu : Int) (set : cpu_set_t) :
    CPU_ISSET k (CPU_SET cpu set) = true ↔
      (k = cpu ∧ 0 ≤ cpu ∧ cpu < (CPU_SETSIZE : Int)) ∨ CPU_ISSET k set = true := by
  unfold CPU_SET
  by_cases h : cpu_in_range cpu = true
  · rw [if_pos h]
    have hr := (cpu_in_range_iff cpu).mp h
    rw [CPU_ISSET_iff, CPU_ISSET_iff]
    by_cases hk : k = cpu
    · subst hk
      simp [hr]
    · constructor
      · rintro ⟨hkr, hs⟩
        right
        refine ⟨hkr, ?_⟩
        rwa [Function.update_noteq] at hs
        intro he
        exact hk ((toNat_inj_of_nonneg hkr.1 hr.1).mp he)
      · rintro (⟨he, _⟩ | ⟨hkr, hs⟩)
        · exact absurd he hk
        · refine ⟨hkr, ?_⟩
          rwa [Function.update_noteq]
          intro he
          exact hk ((toNat_inj_of_nonneg hkr.1 hr.1).mp he)
  · rw [if_neg h]
    constructor
    · intro hs; exact Or.inr hs
    · rintro (⟨_, hr⟩ | hs)
      · exact absurd ((cpu_in_range_iff cpu).mpr hr) h
      · exact hs

theorem CPU_ISSET_CPU_CLR (k cpu : Int) (set : cpu_set_t) :
    CPU_ISSET k (CPU_CLR cpu set) = true ↔ k ≠ cpu ∧ CPU_ISSET k set = true := by
  unfold CPU_CLR
  by_cases h : cpu_in_range cpu = true
  · rw [if_pos h]
    have hr := (cpu_in_range_iff cpu).mp h
    rw [CPU_ISSET_iff, CPU_ISSET_iff]
    by_cases hk : k = cpu
    · subst hk
      simp
    · constructor
      · rintro ⟨hkr, hs⟩
        refine ⟨hk, hkr, ?_⟩
        rwa [Function.update_noteq] at hs
        intro he
        exact hk ((toNat_inj_of_nonneg hkr.1 hr.1).mp he)
      · rintro ⟨_, hkr, hs⟩
        refine ⟨hkr, ?_⟩
        rwa [Function.update_noteq]
        intro he
        exact hk ((toNat_inj_of_nonneg hkr.1 hr.1).mp he)
  · rw [if_neg h]
    constructor
    · intro hs
      refine ⟨?_, hs⟩
      intro he
      subst he
      exact h ((cpu_in_range_iff k).mpr ((CPU_ISSET_iff k set).mp hs).1)
    · exact fun hs => hs.2

theorem search_loop_none (set : cpu_set_t) :
    ∀ (n : Nat) (i : Int), (∀ j : Nat, j < n → CPU_ISSET (i + j) set = false) →
      cpu_set_search_loop set n i = 0 := by
  intro n
  induction n with
  | zero => intro i _; rfl
  | succ n ih =>
      intro i h
      have h0 := h 0 (Nat.succ_pos n)
      simp only [Nat.cast_zero, add_zero] at h0
      rw [cpu_set_search_loop, h0]
      simp only [Bool.false_eq_true, if_false]
      apply ih
      intro j hj
      have := h (j + 1) (by omega)
      rw [← this]
      congr 1
      push_cast
      ring

theorem search_loop_found (set : cpu_set_t) :
    ∀ (n : Nat) (i : Int) (j : Nat), j < n → CPU_ISSET (i + j) set = true →
      (∀ k : Nat, k < j → CPU_ISSET (i + k) set = false) →
      cpu_set_search_loop set n i = i + j := by
  intro n
  induction n with
  | zero => intro i j hj; omega
  | succ n ih =>
      intro i j hj hset hmin
      rw [cpu_set_search_loop]
      rcases Nat.eq_zero_or_pos j with hj0 | hjpos
      · subst hj0
        simp only [Nat.cast_zero, add_zero] at hset ⊢
        rw [if_pos hset]
      · have h0 := hmin 0 hjpos
        simp only [Nat.cast_zero, add_zero] at h0
        rw [h0]
        simp only [Bool.false_eq_true, if_false]
        have hj1 : ((j - 1 : Nat) : Int) = (j : Int) - 1 := by omega
        have := ih (i + 1) (j - 1) (by omega)
          (by rw [← hset]; congr 1; rw [hj1]; ring)
          (fun k hk => by
            have := hmin (k + 1) (by omega)
            rw [← this]; congr 1; push_cast; ring)
        rw [this, hj1]
        ring

theorem search_next_none (cpu : Int) (set : cpu_set_t)
    (h : ∀ k : Int, cpu < k → k < (CPU_SETSIZE : Int) - 1 → CPU_ISSET k set = false) :
    cpu_set_search_next cpu set = 0 := by
  unfold cpu_set_search_next
  apply search_loop_none
  intro j hj
  apply h <;> omega

theorem search_next_found (cpu r : Int) (set : cpu_set_t)
    (h1 : cpu < r) (h2 : r < (CPU_SETSIZE : Int) - 1) (h3 : CPU_ISSET r set = true)
    (h4 : ∀ k : Int, cpu < k → k < r → CPU_ISSET k set = false) :
    cpu_set_search_next cpu set = r := by
  unfold cpu_set_search_next
  have := search_loop_found set ((CPU_SETSIZE : Int) - 1 - (cpu + 1)).toNat (cpu + 1)
    (r - (cpu + 1)).toNat (by omega)
    (by rw [← h3]; congr 1; omega)
    (fun k hk => by apply h4 <;> omega)
  rw [this]
  omega

/-- C5 at the failing input: CPU 1023 is a member of the set and greater than `-1`, yet
`cpu_set_search_next(-1, set)` returns 0 instead of 1023, because its loop stops at
`CPU_SETSIZE - 1`. -/
theorem C5_search_next_skips_last_cpu :
    CPU_ISSET 1023 (single_cpu 1023) = true ∧ (1023 : Int) < (CPU_SETSIZE : Int) ∧
    (∀ k : Nat, k < 1023 → CPU_ISSET (k : Int) (single_cpu 1023) = false) ∧
    cpu_set_search_next (-1) (single_cpu 1023) = 0 := by
  refine ⟨by decide!, by decide!, ?_, by decide!⟩
  intro k hk
  cases hres : CPU_ISSET (k : Int) (single_cpu 1023)
  · rfl
  · have := ((CPU_ISSET_nat k (single_cpu 1023)).mp hres).2
    simp only [single_cpu, decide_eq_true_eq] at this
    omega

/-- C3 at the failing input: for the one-member CPU set `{1023}` and one task,
`integrate_split_tasks` writes `cpu = 0` into the descriptor, and CPU 0 is not a
member of the set. -/
theorem C3_split_assigns_cpu_outside_set :
    1 ≤ CPU_COUNT (single_cpu 1023) ∧
    (integrate_split_tasks blank_tasks 1 (single_cpu 1023) 10 0 1 0).cpu = 0 ∧
    CPU_ISSET 0 (single_cpu 1023) = false ∧
    CPU_ISSET (integrate_split_tasks blank_tasks 1 (single_cpu 1023) 10 0 1 0).cpu
      (single_cpu 1023) = false := by
  have hc : CPU_COUNT (single_cpu 1023) = 1 := by decide!
  have hs : cpu_set_search_next (-1) (single_cpu 1023) = 0 := by decide!
  have hcpu : (integrate_split_tasks blank_tasks 1 (single_cpu 1023) 10 0 1 0).cpu = 0 := by
    unfold integrate_split_tasks
    rw [hc, hs]
    rfl
  refine ⟨by rw [hc], hcpu, by decide!, ?_⟩
  rw [hcpu]
  decide!

/-! ### `integrate_tasks_unused_cpus` -/

theorem unused_copy_loop_spec :
    ∀ (n i : Nat) (m : unused_mem),
      (unused_copy_loop n i m).tasks = m.tasks ∧
      (unused_copy_loop n i m).cpuset = m.cpuset ∧
      ∀ k : Int, CPU_ISSET k (unused_copy_loop n i m).result = true ↔
        CPU_ISSET k m.result = true ∨
          ((i : Int) ≤ k ∧ k < (i : Int) + n ∧ CPU_ISSET k m.cpuset = true) := by
  intro n
  induction n with
  | zero =>
      intro i m
      refine ⟨rfl, rfl, fun k => ?_⟩
      simp only [unused_copy_loop, Nat.cast_zero, add_zero]
      constructor
      · exact fun h => Or.inl h
      · rintro (h | ⟨h1, h2, _⟩)
        · exact h
        · omega
  | succ n ih =>
      intro i m
      rw [unused_copy_loop]
      obtain ⟨ht, hc, hr⟩ := ih (i + 1)
        (if CPU_ISSET (i : Int) m.cpuset then { m with result := CPU_SET (i : Int) m.result }
         else m)
      refine ⟨?_, ?_, fun k => ?_⟩
      · rw [ht]; split_ifs <;> rfl
      · rw [hc]; split_ifs <;> rfl
      · rw [hr k]
        by_cases hi : CPU_ISSET (i : Int) m.cpuset = true
        · simp only [if_pos hi, CPU_ISSET_CPU_SET]
          have hir := ((CPU_ISSET_iff _ _).mp hi).1
          constructor
          · rintro ((⟨hk, _⟩ | h) | ⟨h1, h2, h3⟩)
            · right; subst hk; exact ⟨le_refl _, by push_cast; omega, hi⟩
            · left; exact h
            · right; exact ⟨by push_cast at h1; omega, by push_cast at h2 ⊢; omega, h3⟩
          · rintro (h | ⟨h1, h2, h3⟩)
            · left; right; exact h
            · by_cases hk : k = (i : Int)
              · left; left; exact ⟨hk, hir⟩
              · right; exact ⟨by push_cast; omega, by push_cast at h2 ⊢; omega, h3⟩
        · simp only [if_neg hi]
          constructor
          · rintro (h | ⟨h1, h2, h3⟩)
            · left; exact h
            · right; exact ⟨by push_cast at h1; omega, by push_cast at h2 ⊢; omega, h3⟩
          · rintro (h | ⟨h1, h2, h3⟩)
            · left; exact h
            · by_cases hk : k = (i : Int)
              · subst hk; exact absurd h3 hi
              · right; exact ⟨by push_cast; omega, by push_cast at h2 ⊢; omega, h3⟩

theorem unused_clr_loop_spec :
    ∀ (n i : Nat) (m : unused_mem),
      (unused_clr_loop n i m).tasks = m.tasks ∧
      (unused_clr_loop n i m).cpuset = m.cpuset ∧
      ∀ k : Int, CPU_ISSET k (unused_clr_loop n i m).result = true ↔
        CPU_ISSET k m.result = true ∧ ∀ j, i ≤ j → j < i + n → (m.tasks j).cpu ≠ k := by
  intro n
  induction n with
  | zero =>
      intro i m
      refine ⟨rfl, rfl, fun k => ?_⟩
      simp only [unused_clr_loop, Nat.add_zero]
      exact ⟨fun h => ⟨h, fun j h1 h2 => by omega⟩, fun h => h.1⟩
  | succ n ih =>
      intro i m
      rw [unused_clr_loop]
      obtain ⟨ht, hc, hr⟩ := ih (i + 1) { m with result := CPU_CLR (m.tasks i).cpu m.result }
      refine ⟨ht, hc, fun k => ?_⟩
      rw [hr k]
      simp only [CPU_ISSET_CPU_CLR]
      constructor
      · rintro ⟨⟨hne, hs⟩, hall⟩
        refine ⟨hs, fun j h1 h2 => ?_⟩
        rcases Nat.eq_or_lt_of_le h1 with he | hlt
        · subst he; exact fun h => hne h.symm
        · exact hall j hlt (by omega)
      · rintro ⟨hs, hall⟩
        exact ⟨⟨fun h => hall i (le_refl _) (by omega) h.symm, hs⟩,
          fun j h1 h2 => hall j (by omega) (by omega)⟩

theorem unused_cpus_isset (tasks : Nat → task_container) (n_tasks : Nat)
    (cpuset result : cpu_set_t) (i : Int) :
    CPU_ISSET i (integrate_tasks_unused_cpus
      { tasks := tasks, cpuset := cpuset, result := result } n_tasks).result = true ↔
      CPU_ISSET i cpuset = true ∧ ∀ j, j < n_tasks → (tasks j).cpu ≠ i := by
  unfold integrate_tasks_unused_cpus
  obtain ⟨_, _, hr⟩ := unused_clr_loop_spec n_tasks 0
    (unused_copy_loop CPU_SETSIZE 0
      { tasks := tasks, cpuset := cpuset, result := CPU_ZERO })
  obtain ⟨ht', _, hr'⟩ := unused_copy_loop_spec CPU_SETSIZE 0
    { tasks := tasks, cpuset := cpuset, result := CPU_ZERO }
  rw [hr i, hr' i, ht']
  simp only [CPU_ISSET_CPU_ZERO, Bool.false_eq_true, false_or, Nat.cast_zero, zero_add,
    Nat.zero_le, true_implies]
  constructor
  · rintro ⟨⟨_, _, hs⟩, hall⟩
    exact ⟨hs, hall⟩
  · rintro ⟨hs, hall⟩
    have hir := ((CPU_ISSET_iff _ _).mp hs).1
    exact ⟨⟨hir.1, hir.2, hs⟩, hall⟩

/-- C6. `integrate_tasks_unused_cpus` computes a set difference: an index is a member
of the result exactly when it is a member of the given CPU set and no descriptor
`tasks[0 .. n_tasks-1]` has it as its `cpu`; the given CPU set and the descriptors are
left unchanged. -/
theorem C6_unused_cpus_is_difference (m : unused_mem) (n_tasks : Nat) (i : Int) :
    (CPU_ISSET i (integrate_tasks_unused_cpus m n_tasks).result = true ↔
      CPU_ISSET i m.cpuset = true ∧ ∀ j, j < n_tasks → (m.tasks j).cpu ≠ i) ∧
    (integrate_tasks_unused_cpus m n_tasks).cpuset = m.cpuset ∧
    (integrate_tasks_unused_cpus m n_tasks).tasks = m.tasks := by
  unfold integrate_tasks_unused_cpus
  obtain ⟨ht, hc, hr⟩ := unused_clr_loop_spec n_tasks 0
    (unused_copy_loop CPU_SETSIZE 0 { m with result := CPU_ZERO })
  obtain ⟨ht', hc', hr'⟩ := unused_copy_loop_spec CPU_SETSIZE 0 { m with result := CPU_ZERO }
  refine ⟨?_, by rw [hc, hc'], by rw [ht, ht']⟩
  rw [hr i, hr' i, ht']
  simp only [CPU_ISSET_CPU_ZERO, Bool.false_eq_true, false_or, Nat.cast_zero, zero_add,
    Nat.zero_le, true_implies]
  constructor
  · rintro ⟨⟨_, _, hs⟩, hall⟩
    exact ⟨hs, hall⟩
  · rintro ⟨hs, hall⟩
    have hir := ((CPU_ISSET_iff _ _).mp hs).1
    exact ⟨⟨hir.1, hir.2, hs⟩, hall⟩

/-! ### Counting members and walking the set -/

theorem countP_range_eq_card (p : Nat → Bool) :
    ∀ n, (List.range n).countP p = ((Finset.range n).filter (fun i => p i = true)).card := by
  intro n
  induction n with
  | zero => simp
  | succ n ih =>
      rw [List.range_succ, List.countP_append, ih, Finset.range_succ, Finset.filter_insert]
      by_cases h : p n = true
      · rw [if_pos h, Finset.card_insert_of_not_mem (by simp)]
        simp [h]
      · rw [if_neg h]
        simp [h]

theorem CPU_COUNT_eq_card (set : cpu_set_t) : CPU_COUNT set = (members set).card :=
  countP_range_eq_card set CPU_SETSIZE

theorem mem_members (set : cpu_set_t) (i : Nat) :
    i ∈ members set ↔ CPU_ISSET (i : Int) set = true := by
  rw [CPU_ISSET_nat]
  simp [members]

theorem mem_members_above (set : cpu_set_t) (c : Int) (i : Nat) :
    i ∈ members_above set c ↔ CPU_ISSET (i : Int) set = true ∧ c < (i : Int) := by
  simp [members_above, mem_members]

theorem members_above_neg_one (set : cpu_set_t) : members_above set (-1) = members set := by
  ext i
  rw [mem_members_above, mem_members]
  constructor
  · exact fun h => h.1
  · exact fun h => ⟨h, by omega⟩

theorem search_next_of_two_above (set : cpu_set_t) (c : Int)
    (h2 : 2 ≤ (members_above set c).card) :
    c < cpu_set_search_next c set ∧
    cpu_set_search_next c set < (CPU_SETSIZE : Int) - 1 ∧
    CPU_ISSET (cpu_set_search_next c set) set = true ∧
    (members_above set (cpu_set_search_next c set)).card + 1 = (members_above set c).card := by
  obtain ⟨x, hx, y, hy, hxy⟩ := Finset.one_lt_card.mp (show 1 < (members_above set c).card by omega)
  have hne : (members_above set c).Nonempty := ⟨x, hx⟩
  set r := (members_above set c).min' hne with hr
  have hrmem : r ∈ members_above set c := Finset.min'_mem _ hne
  have hrx : r ≤ x := Finset.min'_le _ x hx
  have hry : r ≤ y := Finset.min'_le _ y hy
  have hxlt : x < CPU_SETSIZE := ((CPU_ISSET_nat x set).mp ((mem_members_above set c x).mp hx).1).1
  have hylt : y < CPU_SETSIZE := ((CPU_ISSET_nat y set).mp ((mem_members_above set c y).mp hy).1).1
  have hrlt : r + 1 < CPU_SETSIZE := by omega
  obtain ⟨hrset, hcr⟩ := (mem_members_above set c r).mp hrmem
  have hfound : cpu_set_search_next c set = (r : Int) := by
    apply search_next_found c r set hcr (by omega) hrset
    intro k hk1 hk2
    cases hres : CPU_ISSET k set
    · rfl
    · exfalso
      have hk0 := ((CPU_ISSET_iff k set).mp hres).1
      have hkmem : k.toNat ∈ members_above set c := by
        rw [mem_members_above]
        have : ((k.toNat : Nat) : Int) = k := Int.toNat_of_nonneg hk0.1
        rw [this]
        exact ⟨hres, hk1⟩
      have := Finset.min'_le _ _ hkmem
      omega
  rw [hfound]
  refine ⟨hcr, by omega, hrset, ?_⟩
  have herase : members_above set (r : Int) = (members_above set c).erase r := by
    ext i
    rw [Finset.mem_erase, mem_members_above, mem_members_above]
    constructor
    · rintro ⟨hs, hlt⟩
      exact ⟨by omega, hs, by omega⟩
    · rintro ⟨hne', hs, hlt⟩
      have hle : r ≤ i := Finset.min'_le _ i ((mem_members_above set c i).mpr ⟨hs, hlt⟩)
      exact ⟨hs, by omega⟩
  rw [herase, Finset.card_erase_of_mem hrmem]
  omega

theorem cpu_walk_above (set : cpu_set_t) :
    ∀ k, k + 1 ≤ CPU_COUNT set →
      (members_above set (cpu_walk set k)).card + k = CPU_COUNT set := by
  intro k
  induction k with
  | zero =>
      intro _
      simp [cpu_walk, members_above_neg_one, CPU_COUNT_eq_card]
  | succ k ih =>
      intro hk
      have hprev := ih (by omega)
      have := (search_next_of_two_above set (cpu_walk set k) (by omega)).2.2.2
      simp only [cpu_walk]
      omega

theorem cpu_walk_step (set : cpu_set_t) (k : Nat) (hk : k + 2 ≤ CPU_COUNT set) :
    cpu_walk set k < cpu_walk set (k + 1) ∧
    cpu_walk set (k + 1) < (CPU_SETSIZE : Int) - 1 ∧
    CPU_ISSET (cpu_walk set (k + 1)) set = true := by
  have hprev := cpu_walk_above set k (by omega)
  have h := search_next_of_two_above set (cpu_walk set k) (by omega)
  exact ⟨h.1, h.2.1, h.2.2.1⟩

theorem cpu_walk_lt (set : cpu_set_t) :
    ∀ j i, i < j → j + 1 ≤ CPU_COUNT set → cpu_walk set i < cpu_walk set j := by
  intro j
  induction j with
  | zero => intro i hi; omega
  | succ j ih =>
      intro i hi hj
      have hstep := (cpu_walk_step set j (by omega)).1
      rcases Nat.lt_or_ge i j with hlt | hge
      · exact lt_trans (ih i hlt (by omega)) hstep
      · have : i = j := by omega
        subst this
        exact hstep

theorem split_one_each_cpu (cpuset : cpu_set_t) (base step : ℚ) :
    ∀ (m S k : Nat) (st : split_state) (j : Nat), j < m →
      ((split_outer cpuset base step m S m (cpu_walk cpuset (k + 1)) st).tasks
        (st.cur_task + j)).cpu = cpu_walk cpuset (k + 1 + j) := by
  intro m
  induction m with
  | zero => intro S k st j hj; omega
  | succ m ih =>
      intro S k st j hj
      rw [split_outer_one_each]
      rcases Nat.eq_zero_or_pos j with hj0 | hjpos
      · subst hj0
        rw [split_outer_frame _ _ _ _ _ _ _ _ _ (by simp [split_write])]
        simp only [split_write, Nat.add_zero, Function.update_same]
      · have hidx : st.cur_task + j =
            (split_write base step (cpu_walk cpuset (k + 1)) (S / (m + 1)) st).cur_task
              + (j - 1) := by
          simp only [split_write]; omega
        have hw : cpu_set_search_next (cpu_walk cpuset (k + 1)) cpuset =
            cpu_walk cpuset (k + 1 + 1) := rfl
        rw [hidx, hw, ih _ (k + 1) _ (j - 1) (by omega)]
        congr 1
        omega

theorem split_tasks_cpu (tasks0 : Nat → task_container) (n_tasks : Nat) (cpuset : cpu_set_t)
    (n_steps : Nat) (base step : ℚ) (hle : n_tasks ≤ CPU_COUNT cpuset) (j : Nat)
    (hj : j < n_tasks) :
    (integrate_split_tasks tasks0 n_tasks cpuset n_steps base step j).cpu =
      cpu_walk cpuset (j + 1) := by
  have := split_one_each_cpu cpuset base step n_tasks n_steps 0
    { tasks := tasks0, cur_task := 0, cur_step := 0 } j hj
  simp only [Nat.zero_add] at this
  rw [Nat.add_comm 1 j] at this
  simpa only [integrate_split_tasks, split_n_cpus_eq hle] using this

/-! ### Filler sizing in `integrate_multicore_scalable` -/

theorem unused_count (tasks : Nat → task_container) (n : Nat) (cpuset bad0 : cpu_set_t)
    (hmem : ∀ j, j < n → CPU_ISSET (tasks j).cpu cpuset = true)
    (hinj : ∀ i j, i < n → j < n → (tasks i).cpu = (tasks j).cpu → i = j) :
    CPU_COUNT (scalable_bad_cpuset tasks n cpuset bad0) = CPU_COUNT cpuset - n := by
  have hnonneg : ∀ j, j < n → 0 ≤ (tasks j).cpu :=
    fun j hj => ((CPU_ISSET_iff _ _).mp (hmem j hj)).1.1
  have hset : members (scalable_bad_cpuset tasks n cpuset bad0) =
      members cpuset \ (Finset.range n).image (fun j => (tasks j).cpu.toNat) := by
    ext i
    rw [Finset.mem_sdiff, mem_members, mem_members, scalable_bad_cpuset,
      (unused_cpus_isset tasks n cpuset bad0 i)]
    simp only [Finset.mem_image, Finset.mem_range, not_exists, not_and]
    constructor
    · rintro ⟨hs, hall⟩
      refine ⟨hs, fun j hj he => hall j hj ?_⟩
      have := hnonneg j hj
      omega
    · rintro ⟨hs, hall⟩
      refine ⟨hs, fun j hj he => hall j hj ?_⟩
      have := hnonneg j hj
      omega
  have hsub : (Finset.range n).image (fun j => (tasks j).cpu.toNat) ⊆ members cpuset := by
    intro i hi
    obtain ⟨j, hj, rfl⟩ := Finset.mem_image.mp hi
    rw [mem_members, Int.toNat_of_nonneg (hnonneg j (Finset.mem_range.mp hj))]
    exact hmem j (Finset.mem_range.mp hj)
  have hcard : ((Finset.range n).image (fun j => (tasks j).cpu.toNat)).card = n := by
    rw [Finset.card_image_of_injOn, Finset.card_range]
    intro a ha b hb hab
    have ha' := Finset.mem_range.mp (Finset.mem_coe.mp ha)
    have hb' := Finset.mem_range.mp (Finset.mem_coe.mp hb)
    apply hinj a b ha' hb'
    have h1 := hnonneg a ha'
    have h2 := hnonneg b hb'
    simp only at hab
    omega
  rw [CPU_COUNT_eq_card, CPU_COUNT_eq_card, hset, Finset.card_sdiff hsub, hcard]

theorem split_tasks_cpu_mem (tasks0 : Nat → task_container) (n_threads : Nat)
    (cpuset : cpu_set_t) (n_steps : Nat) (base step : ℚ)
    (h2 : n_threads < CPU_COUNT cpuset) (j : Nat) (hj : j < n_threads) :
    CPU_ISSET (integrate_split_tasks tasks0 n_threads cpuset n_steps base step j).cpu
      cpuset = true := by
  rw [split_tasks_cpu tasks0 n_threads cpuset n_steps base step (by omega) j hj]
  exact (cpu_walk_step cpuset j (by omega)).2.2

theorem split_tasks_cpu_inj (tasks0 : Nat → task_container) (n_threads : Nat)
    (cpuset : cpu_set_t) (n_steps : Nat) (base step : ℚ)
    (h2 : n_threads < CPU_COUNT cpuset) (i j : Nat) (hi : i < n_threads)
    (hj : j < n_threads)
    (he : (integrate_split_tasks tasks0 n_threads cpuset n_steps base step i).cpu =
      (integrate_split_tasks tasks0 n_threads cpuset n_steps base step j).cpu) : i = j := by
  rw [split_tasks_cpu tasks0 n_threads cpuset n_steps base step (by omega) i hi,
    split_tasks_cpu tasks0 n_threads cpuset n_steps base step (by omega) j hj] at he
  rcases Nat.lt_trichotomy i j with hlt | heq | hgt
  · have := cpu_walk_lt cpuset (j + 1) (i + 1) (by omega) (by omega)
    omega
  · exact heq
  · have := cpu_walk_lt cpuset (i + 1) (j + 1) (by omega) (by omega)
    omega

/-- C9 (as stated) fails: with `total_steps = 2^63`, one thread and the CPU set
`{0, 1, 2}` there are 2 unused CPUs, `(total_steps / n_threads) * n_unused` is `2^64`,
but the step count handed to the filler split is 0. -/
theorem C9_filler_sizing_counterexample :
    1 < CPU_COUNT (first_cpus 3) ∧
    CPU_COUNT (scalable_bad_cpuset
      (integrate_split_tasks blank_tasks 1 (first_cpus 3) (2 ^ 63) 0 1) 1 (first_cpus 3)
      CPU_ZERO) = 2 ∧
    scalable_n_bad_steps (2 ^ 63) 1 (scalable_n_bad_threads 1 (first_cpus 3)) = 0 ∧
    (2 ^ 63 / 1) * 2 = 2 ^ 64 := by
  have hc : CPU_COUNT (first_cpus 3) = 3 := by decide!
  refine ⟨by rw [hc]; decide, ?_, ?_, by norm_num⟩
  · rw [unused_count _ _ _ _
      (split_tasks_cpu_mem blank_tasks 1 (first_cpus 3) (2 ^ 63) 0 1 (by rw [hc]; decide))
      (split_tasks_cpu_inj blank_tasks 1 (first_cpus 3) (2 ^ 63) 0 1 (by rw [hc]; decide)),
      hc]
  · simp only [scalable_n_bad_steps, scalable_n_bad_threads, hc, SIZE_MOD]
    norm_num

/-- C9 (amended). Filler sizing in `integrate_multicore_scalable`: for
`1 ≤ n_threads < |cpuset|` the primary split assigns its `n_threads` tasks to pairwise
distinct members of the CPU set, the set returned by `integrate_tasks_unused_cpus` has
exactly `|cpuset| - n_threads` members, this number equals `n_bad_threads`, and the step
count partitioned across the filler tasks is `(total_steps / n_threads) * n_unused`
reduced modulo `2^64` (`size_t` arithmetic), hence that product itself whenever it is
below `2^64`; the filler descriptors tile exactly that many steps. -/
theorem C9_filler_sizing (tasks0 bad_tasks0 : Nat → task_container) (bad0 : cpu_set_t)
    (n_threads : Nat) (cpuset : cpu_set_t) (total_steps : Nat) (base step : ℚ)
    (h1 : 1 ≤ n_threads) (h2 : n_threads < CPU_COUNT cpuset) :
    let tasks := integrate_split_tasks tasks0 n_threads cpuset total_steps base step
    let n_unused := CPU_COUNT (scalable_bad_cpuset tasks n_threads cpuset bad0)
    let n_bad_steps := scalable_n_bad_steps total_steps n_threads
      (scalable_n_bad_threads n_threads cpuset)
    (∀ j, j < n_threads → CPU_ISSET (tasks j).cpu cpuset = true) ∧
    (∀ i j, i < n_threads → j < n_threads → (tasks i).cpu = (tasks j).cpu → i = j) ∧
    n_unused = CPU_COUNT cpuset - n_threads ∧
    scalable_n_bad_threads n_threads cpuset = n_unused ∧
    n_bad_steps = ((total_steps / n_threads) * n_unused) % 2 ^ 64 ∧
    ((total_steps / n_threads) * n_unused < 2 ^ 64 →
      n_bad_steps = (total_steps / n_threads) * n_unused) ∧
    Contig (scalable_bad_tasks tasks bad_tasks0 n_threads cpuset bad0 total_steps base step)
      n_unused n_bad_steps := by
  intro tasks n_unused n_bad_steps
  have _hpos : 0 < n_threads := h1
  have hmem := split_tasks_cpu_mem tasks0 n_threads cpuset total_steps base step h2
  have hinj := split_tasks_cpu_inj tasks0 n_threads cpuset total_steps base step h2
  have hcount : n_unused = CPU_COUNT cpuset - n_threads :=
    unused_count tasks n_threads cpuset bad0 hmem hinj
  have hbad : scalable_n_bad_threads n_threads cpuset = n_unused := by
    rw [hcount, scalable_n_bad_threads, if_pos h2]
  have hsteps : n_bad_steps = ((total_steps / n_threads) * n_unused) % 2 ^ 64 := by
    simp only [n_bad_steps, scalable_n_bad_steps, hbad, SIZE_MOD]
  refine ⟨hmem, hinj, hcount, hbad, hsteps, ?_, ?_⟩
  · intro hlt
    rw [hsteps, Nat.mod_eq_of_lt hlt]
  · have := contig_split_tasks bad_tasks0 (scalable_n_bad_threads n_threads cpuset)
      (scalable_bad_cpuset tasks n_threads cpuset bad0) n_bad_steps base step
      (by rw [hbad, hcount]; omega) (by change 1 ≤ n_unused; rw [hcount]; omega)
    rw [← hbad]
    exact this

/-- C9 (amended) instantiated: one thread on the CPU set `{0, 1, 2}` with 10 steps
leaves 2 unused CPUs. -/
theorem C9_filler_sizing_witness :
    CPU_COUNT (scalable_bad_cpuset
      (integrate_split_tasks blank_tasks 1 (first_cpus 3) 10 0 1) 1 (first_cpus 3) CPU_ZERO)
      = CPU_COUNT (first_cpus 3) - 1 :=
  (C9_filler_sizing blank_tasks blank_tasks CPU_ZERO 1 (first_cpus 3) 10 0 1
    (by decide) (by decide!)).2.2.1

/-! ### One CPU per core -/

theorem assoc_init_loop_spec :
    ∀ (n : Nat) (i : Int) (a : Int → Int) (k : Int),
      assoc_init_loop n i a k = if i ≤ k ∧ k < i + n then -1 else a k := by
  intro n
  induction n with
  | zero =>
      intro i a k
      simp only [assoc_init_loop, Nat.cast_zero, add_zero]
      rw [if_neg (by omega)]
  | succ n ih =>
      intro i a k
      rw [assoc_init_loop, ih, Function.update_apply]
      push_cast
      split_ifs <;> first | rfl | omega

theorem assoc_fill_untouched (topo : cpu_topology) (n_cores : Int) (s : Int) :
    ∀ (n i : Nat) (a : Int → Int),
      (∀ j, i ≤ j → j < i + n → assoc_slot topo n_cores j ≠ s) →
      assoc_fill_loop topo n_cores n i a s = a s := by
  intro n
  induction n with
  | zero => intro i a _; rfl
  | succ n ih =>
      intro i a h
      rw [assoc_fill_loop, ih (i + 1) _ (fun j h1 h2 => h j (by omega) (by omega))]
      exact Function.update_noteq (Ne.symm (h i (le_refl _) (by omega))) _ _

theorem assoc_fill_last (topo : cpu_topology) (n_cores : Int) (s : Int) :
    ∀ (n i : Nat) (a : Int → Int) (j : Nat), i ≤ j → j < i + n →
      assoc_slot topo n_cores j = s →
      (∀ j', j < j' → j' < i + n → assoc_slot topo n_cores j' ≠ s) →
      assoc_fill_loop topo n_cores n i a s = (topo.cpu j).cpu_id := by
  intro n
  induction n with
  | zero => intro i a j h1 h2; omega
  | succ n ih =>
      intro i a j h1 h2 hs hlast
      rw [assoc_fill_loop]
      rcases Nat.eq_or_lt_of_le h1 with he | hlt
      · subst he
        rw [assoc_fill_untouched topo n_cores s n (i + 1) _
          (fun j' h3 h4 => hlast j' (by omega) (by omega))]
        have : (topo.cpu i).package_id * n_cores + (topo.cpu i).core_id = s := hs
        rw [this, Function.update_same]
      · exact ih (i + 1) _ j (by omega) (by omega) hs
          (fun j' h3 h4 => hlast j' h3 (by omega))

theorem assoc_collect_loop_spec (a : Int → Int) :
    ∀ (n : Nat) (i : Int) (s : cpu_set_t) (k : Int),
      CPU_ISSET k (assoc_collect_loop a n i s) = true ↔
        CPU_ISSET k s = true ∨
        ∃ t : Nat, t < n ∧ a (i + t) ≠ -1 ∧ a (i + t) = k ∧ 0 ≤ k ∧ k < (CPU_SETSIZE : Int) := by
  intro n
  induction n with
  | zero =>
      intro i s k
      simp [assoc_collect_loop]
  | succ n ih =>
      intro i s k
      rw [assoc_collect_loop, ih]
      constructor
      · rintro (h | ⟨t, ht, h1, h2, h3⟩)
        · by_cases hne : a i ≠ -1
          · rw [if_pos hne, CPU_ISSET_CPU_SET] at h
            rcases h with ⟨hk, hr⟩ | h
            · right
              exact ⟨0, by omega, by simpa using hne, by simpa using hk.symm, hk ▸ hr⟩
            · exact Or.inl h
          · rw [if_neg hne] at h
            exact Or.inl h
        · right
          refine ⟨t + 1, by omega, ?_, ?_, h3⟩
          · rw [show i + ((t + 1 : Nat) : Int) = i + 1 + t by push_cast; ring]; exact h1
          · rw [show i + ((t + 1 : Nat) : Int) = i + 1 + t by push_cast; ring]; exact h2
      · rintro (h | ⟨t, ht, h1, h2, h3⟩)
        · left
          by_cases hne : a i ≠ -1
          · rw [if_pos hne, CPU_ISSET_CPU_SET]; exact Or.inr h
          · rw [if_neg hne]; exact h
        · rcases Nat.eq_zero_or_pos t with ht0 | htpos
          · subst ht0
            simp only [Nat.cast_zero, add_zero] at h1 h2
            left
            rw [if_pos h1, CPU_ISSET_CPU_SET]
            left
            exact ⟨h2.symm, h2 ▸ h3⟩
          · right
            refine ⟨t - 1, by omega, ?_, ?_, h3⟩
            · rw [show i + 1 + ((t - 1 : Nat) : Int) = i + t by omega]; exact h1
            · rw [show i + 1 + ((t - 1 : Nat) : Int) = i + t by omega]; exact h2

theorem slot_eq_iff {p p' c c' C : Int} (hc : 0 ≤ c) (hcC : c < C) (hc' : 0 ≤ c')
    (hcC' : c' < C) (h : p * C + c = p' * C + c') : p = p' ∧ c = c' := by
  have hp : p = p' := by
    rcases lt_trichotomy p p' with hlt | heq | hgt
    · exfalso
      have : (p + 1) * C ≤ p' * C := by
        apply mul_le_mul_of_nonneg_right (by omega) (by omega)
      rw [add_mul, one_mul] at this
      omega
    · exact heq
    · exfalso
      have : (p' + 1) * C ≤ p * C := by
        apply mul_le_mul_of_nonneg_right (by omega) (by omega)
      rw [add_mul, one_mul] at this
      omega
  subst hp
  exact ⟨rfl, by omega⟩

theorem grid_slot_range {topo : cpu_topology} {P C H : Nat} (g : grid_topology topo P C H)
    (i : Nat) (hi : i < P * C * H) :
    0 ≤ assoc_slot topo (C : Int) i ∧ assoc_slot topo (C : Int) i < ((P * C : Nat) : Int) := by
  obtain ⟨hp0, hp1⟩ := g.packages i hi
  obtain ⟨hc0, hc1⟩ := g.cores i hi
  unfold assoc_slot
  constructor
  · have := mul_nonneg hp0 (show (0 : Int) ≤ (C : Int) by omega)
    omega
  · have : ((topo.cpu i).package_id + 1) * (C : Int) ≤ (P : Int) * (C : Int) := by
      apply mul_le_mul_of_nonneg_right (by omega) (by omega)
    rw [add_mul, one_mul] at this
    push_cast
    omega

theorem grid_slot_inj {topo : cpu_topology} {P C H : Nat} (g : grid_topology topo P C H)
    (i j : Nat) (hi : i < P * C * H) (hj : j < P * C * H)
    (h : assoc_slot topo (C : Int) i = assoc_slot topo (C : Int) j) :
    (topo.cpu i).package_id = (topo.cpu j).package_id ∧
    (topo.cpu i).core_id = (topo.cpu j).core_id :=
  slot_eq_iff (g.cores i hi).1 (g.cores i hi).2 (g.cores j hj).1 (g.cores j hj).2 h

theorem grid_slot_last {topo : cpu_topology} {P C H : Nat} (g : grid_topology topo P C H)
    (t : Nat) (ht : t < P * C) :
    ∃ j, j < P * C * H ∧ assoc_slot topo (C : Int) j = (t : Int) ∧
      ∀ j', j < j' → j' < P * C * H → assoc_slot topo (C : Int) j' ≠ (t : Int) := by
  have hC : 0 < C := by
    rcases Nat.eq_zero_or_pos C with h | h
    · subst h; simp at ht
    · exact h
  have hp : t / C < P := Nat.div_lt_of_lt_mul (by rw [Nat.mul_comm]; exact ht)
  have hc : t % C < C := Nat.mod_lt t hC
  have hcard := g.per_core (t / C) hp (t % C) hc
  set F := (Finset.range (P * C * H)).filter (fun i =>
      (topo.cpu i).package_id = ((t / C : Nat) : Int) ∧
      (topo.cpu i).core_id = ((t % C : Nat) : Int)) with hF
  have hne : F.Nonempty := by
    rw [← Finset.card_pos, hcard]
    exact g.hyper
  have hslot : ∀ j, j ∈ F → assoc_slot topo (C : Int) j = (t : Int) := by
    intro j hj
    obtain ⟨_, h1, h2⟩ := Finset.mem_filter.mp hj
    unfold assoc_slot
    rw [h1, h2]
    have := Nat.div_add_mod' t C
    exact_mod_cast this
  have hmem := Finset.max'_mem F hne
  have hlt : F.max' hne < P * C * H := Finset.mem_range.mp (Finset.mem_filter.mp hmem).1
  refine ⟨F.max' hne, hlt, hslot _ hmem, ?_⟩
  intro j' hj' hj'n hs
  have heq := grid_slot_inj g j' (F.max' hne) hj'n hlt (by rw [hs, hslot _ hmem])
  obtain ⟨_, h1, h2⟩ := Finset.mem_filter.mp hmem
  have hj'F : j' ∈ F := by
    rw [hF, Finset.mem_filter]
    exact ⟨Finset.mem_range.mpr hj'n, by rw [heq.1, h1], by rw [heq.2, h2]⟩
  have := Finset.le_max' F j' hj'F
  omega

theorem grid_one_cpu_per_core_eq {topo : cpu_topology} {P C H : Nat}
    (g : grid_topology topo P C H) (a0 : Int → Int) (cpuset : cpu_set_t) :
    one_cpu_per_core_cpu_topology (some a0) topo cpuset =
      (0, assoc_collect_loop
        (assoc_fill_loop topo (C : Int) (P * C * H) 0 (assoc_init_loop (P * C) 0 a0))
        (P * C) 0 CPU_ZERO) := by
  unfold one_cpu_per_core_cpu_topology
  simp only [g.max_package, g.max_core, g.max_cpu, sub_add_cancel]
  have h1 : ((P : Int) * (C : Int)).toNat = P * C := by
    rw [← Nat.cast_mul, Int.toNat_ofNat]
  rw [h1, Int.toNat_ofNat]

theorem grid_assoc_value (topo : cpu_topology) (P C H : Nat)
    (a : Int → Int) (j : Nat) (hj : j < P * C * H)
    (hlast : ∀ j', j < j' → j' < P * C * H →
      assoc_slot topo (C : Int) j' ≠ assoc_slot topo (C : Int) j) :
    assoc_fill_loop topo (C : Int) (P * C * H) 0 a (assoc_slot topo (C : Int) j) =
      (topo.cpu j).cpu_id :=
  assoc_fill_last topo (C : Int) _ (P * C * H) 0 a j (Nat.zero_le _) (by omega) rfl
    (fun j' h1 h2 => hlast j' h1 (by omega))

theorem last_of_pair_iff_slot {topo : cpu_topology} {P C H : Nat}
    (g : grid_topology topo P C H) (i : Nat) (hi : i < P * C * H) :
    last_of_pair topo (P * C * H) i ↔
      ∀ j', i < j' → j' < P * C * H →
        assoc_slot topo (C : Int) j' ≠ assoc_slot topo (C : Int) i := by
  unfold last_of_pair
  constructor
  · rintro ⟨_, h⟩ j' h1 h2 hs
    exact h j' h1 h2 (grid_slot_inj g j' i h2 hi hs)
  · intro h
    refine ⟨hi, fun j' h1 h2 hp => h j' h1 h2 ?_⟩
    unfold assoc_slot
    rw [hp.1, hp.2]

theorem grid_isset_iff {topo : cpu_topology} {P C H : Nat} (g : grid_topology topo P C H)
    (a0 : Int → Int) (cpuset : cpu_set_t) (k : Int) :
    CPU_ISSET k (one_cpu_per_core_cpu_topology (some a0) topo cpuset).2 = true ↔
      ∃ i, last_of_pair topo (P * C * H) i ∧ (topo.cpu i).cpu_id = k := by
  rw [grid_one_cpu_per_core_eq g, assoc_collect_loop_spec]
  simp only [CPU_ISSET_CPU_ZERO, Bool.false_eq_true, false_or, zero_add]
  constructor
  · rintro ⟨t, ht, _, hk, _⟩
    obtain ⟨j, hj, hs, hlast⟩ := grid_slot_last g t ht
    have hval := grid_assoc_value topo P C H (assoc_init_loop (P * C) 0 a0) j hj
      (fun j' h1 h2 => by rw [hs]; exact hlast j' h1 h2)
    rw [hs] at hval
    refine ⟨j, (last_of_pair_iff_slot g j hj).mpr
      (fun j' h1 h2 => by rw [hs]; exact hlast j' h1 h2), ?_⟩
    rw [← hval, hk]
  · rintro ⟨i, hlast, hk⟩
    have hi : i < P * C * H := hlast.1
    obtain ⟨hs0, hs1⟩ := grid_slot_range g i hi
    have hval := grid_assoc_value topo P C H (assoc_init_loop (P * C) 0 a0) i hi
      ((last_of_pair_iff_slot g i hi).mp hlast)
    obtain ⟨hid0, hid1⟩ := g.cpu_ids i hi
    have hsize := g.size
    refine ⟨(assoc_slot topo (C : Int) i).toNat, by omega, ?_, ?_, by omega, by omega⟩
    · rw [Int.toNat_of_nonneg hs0, hval]; omega
    · rw [Int.toNat_of_nonneg hs0, hval, hk]

theorem last_of_pair_unique {topo : cpu_topology} {n i j : Nat}
    (hi : last_of_pair topo n i) (hj : last_of_pair topo n j)
    (hp : (topo.cpu i).package_id = (topo.cpu j).package_id)
    (hc : (topo.cpu i).core_id = (topo.cpu j).core_id) : i = j := by
  rcases Nat.lt_trichotomy i j with hlt | heq | hgt
  · exact absurd ⟨hp.symm, hc.symm⟩ (hi.2 j hlt hj.1)
  · exact heq
  · exact absurd ⟨hp, hc⟩ (hj.2 i hgt hi.1)

theorem grid_last_exists {topo : cpu_topology} {P C H : Nat} (g : grid_topology topo P C H)
    (p c : Nat) (hp : p < P) (hc : c < C) :
    ∃ i, last_of_pair topo (P * C * H) i ∧
      (topo.cpu i).package_id = (p : Int) ∧ (topo.cpu i).core_id = (c : Int) := by
  have ht : p * C + c < P * C := by
    have : (p + 1) * C ≤ P * C := Nat.mul_le_mul_right C hp
    rw [Nat.succ_mul] at this
    omega
  obtain ⟨j, hj, hs, hlast⟩ := grid_slot_last g (p * C + c) ht
  have hpair : (topo.cpu j).package_id = (p : Int) ∧ (topo.cpu j).core_id = (c : Int) := by
    apply slot_eq_iff (g.cores j hj).1 (g.cores j hj).2 (by omega) (by omega)
    have : assoc_slot topo (C : Int) j = (p : Int) * (C : Int) + (c : Int) := by
      rw [hs]; push_cast; ring
    exact this
  exact ⟨j, (last_of_pair_iff_slot g j hj).mpr
    (fun j' h1 h2 => by rw [hs]; exact hlast j' h1 h2), hpair⟩

theorem grid_count {topo : cpu_topology} {P C H : Nat} (g : grid_topology topo P C H)
    (a0 : Int → Int) (cpuset : cpu_set_t) :
    CPU_COUNT (one_cpu_per_core_cpu_topology (some a0) topo cpuset).2 = P * C := by
  obtain ⟨a2, ha2⟩ : ∃ a2, a2 =
      assoc_fill_loop topo (C : Int) (P * C * H) 0 (assoc_init_loop (P * C) 0 a0) := ⟨_, rfl⟩
  have hval : ∀ t, t < P * C → ∃ j, j < P * C * H ∧
      assoc_slot topo (C : Int) j = (t : Int) ∧ a2 (t : Int) = (topo.cpu j).cpu_id := by
    intro t ht
    obtain ⟨j, hj, hs, hlast⟩ := grid_slot_last g t ht
    have := grid_assoc_value topo P C H (assoc_init_loop (P * C) 0 a0) j hj
      (fun j' h1 h2 => by rw [hs]; exact hlast j' h1 h2)
    rw [hs, ← ha2] at this
    exact ⟨j, hj, hs, this⟩
  have hset : members (one_cpu_per_core_cpu_topology (some a0) topo cpuset).2 =
      (Finset.range (P * C)).image (fun t : Nat => (a2 (t : Int)).toNat) := by
    ext x
    rw [mem_members, grid_one_cpu_per_core_eq g, ← ha2, assoc_collect_loop_spec]
    simp only [CPU_ISSET_CPU_ZERO, Bool.false_eq_true, false_or, zero_add, Finset.mem_image,
      Finset.mem_range]
    constructor
    · rintro ⟨t, ht, _, hk, _⟩
      exact ⟨t, ht, by rw [hk]; simp⟩
    · rintro ⟨t, ht, hx⟩
      obtain ⟨j, hj, _, hv⟩ := hval t ht
      obtain ⟨hid0, hid1⟩ := g.cpu_ids j hj
      have hsize := g.size
      rw [hv] at hx
      refine ⟨t, ht, by rw [hv]; omega, by rw [hv]; omega, by omega, by omega⟩
  rw [CPU_COUNT_eq_card, hset, Finset.card_image_of_injOn, Finset.card_range]
  intro t ht t' ht' he
  have ht1 := Finset.mem_range.mp (Finset.mem_coe.mp ht)
  have ht2 := Finset.mem_range.mp (Finset.mem_coe.mp ht')
  obtain ⟨j, hj, hs, hv⟩ := hval t ht1
  obtain ⟨j', hj', hs', hv'⟩ := hval t' ht2
  simp only at he
  rw [hv, hv'] at he
  have h1 := g.cpu_ids j hj
  have h2 := g.cpu_ids j' hj'
  have hjj : j = j' := g.distinct j hj j' hj' (by omega)
  subst hjj
  have : (t : Int) = (t' : Int) := by rw [← hs, ← hs']
  exact_mod_cast this

/-- C4. One-per-core selection: for a topology of `P` packages × `C` cores × `H ≥ 1`
hyperthreads (`P*C*H` entries, distinct `cpu_id`s `0 .. P*C*H-1` below `CPU_SETSIZE`),
when the allocation of `assoc_cpu` succeeds `one_cpu_per_core_cpu_topology` returns 0
and a CPU set with exactly `P*C` members; its members are exactly the `cpu_id`s of the
entries that are the last in topology order with their `(package_id, core_id)` pair,
and each pair has exactly one of its `cpu_id`s in the set. -/
theorem C4_one_cpu_per_core (topo : cpu_topology) (P C H : Nat) (a0 : Int → Int)
    (cpuset : cpu_set_t) (g : grid_topology topo P C H) :
    (one_cpu_per_core_cpu_topology (some a0) topo cpuset).1 = 0 ∧
    CPU_COUNT (one_cpu_per_core_cpu_topology (some a0) topo cpuset).2 = P * C ∧
    (∀ k : Int, CPU_ISSET k (one_cpu_per_core_cpu_topology (some a0) topo cpuset).2 = true ↔
      ∃ i, last_of_pair topo (P * C * H) i ∧ (topo.cpu i).cpu_id = k) ∧
    (∀ p c, p < P → c < C →
      ∃! k : Int, CPU_ISSET k (one_cpu_per_core_cpu_topology (some a0) topo cpuset).2 = true ∧
        ∃ i, i < P * C * H ∧ (topo.cpu i).cpu_id = k ∧
          (topo.cpu i).package_id = (p : Int) ∧ (topo.cpu i).core_id = (c : Int)) := by
  refine ⟨by rw [grid_one_cpu_per_core_eq g], grid_count g a0 cpuset,
    grid_isset_iff g a0 cpuset, ?_⟩
  intro p c hp hc
  obtain ⟨i, hlast, hpi, hci⟩ := grid_last_exists g p c hp hc
  refine ⟨(topo.cpu i).cpu_id,
    ⟨(grid_isset_iff g a0 cpuset _).mpr ⟨i, hlast, rfl⟩, i, hlast.1, rfl, hpi, hci⟩, ?_⟩
  rintro k ⟨hk, j, hj, hjk, hpj, hcj⟩
  obtain ⟨j0, hlast0, hk0⟩ := (grid_isset_iff g a0 cpuset k).mp hk
  have hjj : j = j0 := g.distinct j hj j0 hlast0.1 (by rw [hjk, hk0])
  subst hjj
  have := last_of_pair_unique hlast0 hlast (by rw [hpj, hpi]) (by rw [hcj, hci])
  rw [← hjk, this]

/-- C4 instantiated: the two-core, four-CPU topology `small_topology` yields a set of
`1 * 2` members. -/
theorem C4_one_cpu_per_core_witness :
    CPU_COUNT (one_cpu_per_core_cpu_topology (some (fun _ => 0)) small_topology CPU_ZERO).2
      = 1 * 2 :=
  (C4_one_cpu_per_core small_topology 1 2 2 (fun _ => 0) CPU_ZERO
    { hyper := by decide
      size := by decide
      max_package := by decide
      max_core := by decide
      max_cpu := by decide
      cpu_ids := by decide
      distinct := by decide
      packages := by decide
      cores := by decide
      per_core := by decide }).2.1

/-! ### Resource release -/

/-- C10 at the failing input: a run of `integrate_multicore` on the CPU set `{0}` in which
every step succeeds returns 0 with block 1, the `threads` array, still allocated (only
`tasks` is freed), whereas `integrate_multicore_scalable` on the same input returns 0
with nothing left allocated; and when the first allocation of `integrate_multicore`
fails, `handle_err` tests the pointer `threads` that was never assigned. -/
theorem C10_multicore_leaks_thread_array :
    (integrate_multicore env_success (fun _ => 1) (single_cpu 0) 10 0 1 blank_tasks
      empty_heap).ret = 0 ∧
    (integrate_multicore env_success (fun _ => 1) (single_cpu 0) 10 0 1 blank_tasks
      empty_heap).h.live = [1] ∧
    (integrate_multicore_scalable env_success (fun _ => 1) 1 (single_cpu 0) 10 0 1
      blank_tasks blank_tasks CPU_ZERO empty_heap).ret = 0 ∧
    (integrate_multicore_scalable env_success (fun _ => 1) 1 (single_cpu 0) 10 0 1
      blank_tasks blank_tasks CPU_ZERO empty_heap).h.live = [] ∧
    (integrate_multicore { env_success with tasks_alloc := false } (fun _ => 1)
      (single_cpu 0) 10 0 1 blank_tasks empty_heap).wild = true := by
  have hc : CPU_COUNT (single_cpu 0) = 1 := by decide!
  have hb : scalable_n_bad_threads 1 (single_cpu 0) = 0 := by
    rw [scalable_n_bad_threads, hc]; rfl
  refine ⟨rfl, rfl, ?_, ?_, rfl⟩
  · simp [integrate_multicore_scalable, scalable_alloc_threads, scalable_alloc_bad_threads,
      scalable_run, hb, env_success, heap_alloc]
  · simp [integrate_multicore_scalable, scalable_alloc_threads, scalable_alloc_bad_threads,
      scalable_run, hb, env_success, heap_alloc, heap_free, empty_heap]

end ParallelIntegral
